import Mathlib

/-!
Verification of the YFlow CLI translation engine.

This file is a shallow embedding, in Lean 4, of the core of the YFlow
command-line tool (a Rust program): the JSON flatten/unflatten transform
(src/core/flatten.rs), the structure-preserving merge (src/core/flatten.rs and
src/core/scanner.rs), the directory scanner (src/core/scanner.rs), the
language-code mapper (src/core/language_mapping.rs), and the batched
import/sync orchestration (src/cli/commands/import_cmd.rs,
src/cli/commands/sync_cmd.rs).

Modeling conventions:
- Rust String is modeled as List Char (Rust compares strings bytewise in
  UTF-8, which coincides with lexicographic order on unicode scalar values).
- serde_json Value is modeled by the mutual inductive JValue/JFields below.
  serde_json object maps (BTreeMap) are modeled as association lists that are
  kept in strictly increasing key order, mirroring the canonical ordered
  representation of BTreeMap; BTreeMap insertion is modeled by ordered
  insertion (mapInsert).
- HashMap of String to String is modeled as an association list with
  insert-or-replace semantics (insertKV).  Iteration order of a Rust HashMap
  is arbitrary; the model fixes the list order as the iteration order, which
  determinizes the functions without changing any order-insensitive result.
- File-system and network effects are modeled by passing the data that the
  effectful call would produce (parse outcomes, push responses) as explicit
  inputs.
-/

namespace YFlow

/-- Rust strings, modeled as their character lists. -/
abbrev Str := List Char

/-- Convenience conversion from Lean string literals. -/
def strOf (s : String) : Str := s.data

/-- A flat dot-path keyed map (Rust: HashMap of String to String). -/
abbrev FlatMap := List (Str × Str)

/-- A translation set: language code to flat key map
(Rust: HashMap of String to HashMap of String to String). -/
abbrev TransList := List (Str × FlatMap)

/-- HashMap insert: replace the binding of the key if present, else add it. -/
def insertKV {β : Type} : List (Str × β) → Str → β → List (Str × β)
  | [], k, v => [(k, v)]
  | (k', v') :: rest, k, v =>
      if k = k' then (k, v) :: rest else (k', v') :: insertKV rest k v

/-- HashMap lookup (first matching binding). -/
def lookupKV {β : Type} : List (Str × β) → Str → Option β
  | [], _ => none
  | (k', v') :: rest, k => if k = k' then some v' else lookupKV rest k

/-- HashMap extend: insert every binding of the second map into the first
(Rust: target.extend(data)). -/
def overlayKV {β : Type} (m : List (Str × β)) (data : List (Str × β)) :
    List (Str × β) :=
  data.foldl (fun acc e => insertKV acc e.1 e.2) m

/-- Splitting a string at every dot character
(Rust: key.split(a dot).collect()). -/
def splitDot : Str → List Str
  | [] => [[]]
  | c :: cs =>
      if c = '.' then [] :: splitDot cs
      else
        match splitDot cs with
        | [] => [[c]]
        | p :: ps => (c :: p) :: ps

/-- The key has no dot character (so splitting it is trivial). -/
def noDot (s : Str) : Bool := s.all (fun c => c ≠ '.')

/-- Joining path segments with dots between them (inverse of splitDot). -/
def unsplitDot : List Str → Str
  | [] => []
  | [x] => x
  | x :: rest => x ++ '.' :: unsplitDot rest

/-! ## The JSON value model

serde_json Value, with objects as key-ordered association lists (BTreeMap).
The numeric and array payloads are never inspected by any operation modeled
here (flatten drops them, unflatten never creates them), so they are left
without arguments.
-/

mutual
inductive JValue : Type where
  | str (s : Str)
  | obj (fields : JFields)
  | num
  | boolean (b : Bool)
  | arr
  | null
deriving DecidableEq
inductive JFields : Type where
  | fnil
  | fcons (key : Str) (value : JValue) (rest : JFields)
deriving DecidableEq
end

/-- Strict bytewise order on Rust strings (UTF-8 byte order coincides with
lexicographic order on unicode scalar values). -/
def strLt : Str → Str → Bool
  | [], [] => false
  | [], _ :: _ => true
  | _ :: _, [] => false
  | a :: as, b :: bs => if a < b then true else if b < a then false else strLt as bs

/-! ### Ordered-map operations on JFields (the BTreeMap model) -/

/-- BTreeMap lookup. -/
def mapLookup : JFields → Str → Option JValue
  | .fnil, _ => none
  | .fcons k' v' rest, k => if k = k' then some v' else mapLookup rest k

/-- BTreeMap insert: replace the value if the key is present, else insert at
the ordered position. -/
def mapInsert : JFields → Str → JValue → JFields
  | .fnil, k, v => .fcons k v .fnil
  | .fcons k' v' rest, k, v =>
      if strLt k k' then .fcons k v (.fcons k' v' rest)
      else if k = k' then .fcons k v rest
      else .fcons k' v' (mapInsert rest k v)

/-- Append of field lists (used to state map lemmas). -/
def fieldsApp : JFields → JFields → JFields
  | .fnil, g => g
  | .fcons k v rest, g => .fcons k v (fieldsApp rest g)

/-- The key list of a field map. -/
def fieldKeys : JFields → List Str
  | .fnil => []
  | .fcons k _ rest => k :: fieldKeys rest

/-! ## The flatten transform (src/core/flatten.rs, flatten_object) -/

/-- Key extension: prefix dot key if the prefix is nonempty, else the key
alone (Rust: the new_key construction in flatten_recursive). -/
def newKey (pre k : Str) : Str := if pre = [] then k else pre ++ '.' :: k

mutual
/-- flatten_recursive of flatten.rs: depth-first walk inserting every string
leaf under its dot path; numbers, booleans, arrays and null are dropped. -/
def flatten_recursive : JValue → Str → FlatMap → FlatMap
  | .str s, pre, result => insertKV result pre s
  | .obj fields, pre, result => flatten_fields fields pre result
  | _, _, result => result
/-- The loop over the entries of an object inside flatten_recursive. -/
def flatten_fields : JFields → Str → FlatMap → FlatMap
  | .fnil, _, result => result
  | .fcons k v rest, pre, result =>
      flatten_fields rest pre (flatten_recursive v (newKey pre k) result)
end

/-- flatten_object of flatten.rs. -/
def flatten_object (value : JValue) (pre : Str) : FlatMap :=
  flatten_recursive value pre []

/-! ## The unflatten transform (src/core/flatten.rs, unflatten_object) -/

/-- insert_into_nested of flatten.rs.  The source first inserts an empty
object when the head segment is absent and then recurses through get_mut,
which silently does nothing when the head segment is bound to a non-object;
the net effect on the map is exactly the three cases below. -/
def insert_into_nested (map : JFields) (parts : List Str) (value : Str) :
    JFields :=
  match parts with
  | [] => map
  | [p] => mapInsert map p (.str value)
  | head :: tail =>
      match mapLookup map head with
      | some (.obj nested) =>
          mapInsert map head (.obj (insert_into_nested nested tail value))
      | some _ => map
      | none =>
          mapInsert map head (.obj (insert_into_nested .fnil tail value))

/-- unflatten_object of flatten.rs: split every key on dots and insert into
the nested structure.  The iteration order over the Rust HashMap is
arbitrary; the model iterates in list order. -/
def unflatten_fields (flat : FlatMap) : JFields :=
  flat.foldl (fun root e => insert_into_nested root (splitDot e.1) e.2) .fnil

def unflatten_object (flat : FlatMap) : JValue :=
  .obj (unflatten_fields flat)

/-! ## The structure-preserving merges -/

/-- merge_with_flat of flatten.rs: flatten the original, overlay the new
translations (new values overwrite old ones), unflatten the result. -/
def merge_with_flat (original : JValue) (flat_translations : FlatMap) : JValue :=
  let flat_original := flatten_object original []
  let merged := flat_translations.foldl (fun m e => insertKV m e.1 e.2) flat_original
  unflatten_object merged

/-- merge_translations_with_structure of scanner.rs.  The force parameter is
accepted but never used in the merge logic, mirroring the source (the source
comment states it is kept for API compatibility only). -/
def merge_translations_with_structure (original : JValue)
    (translations : FlatMap) (_force : Bool) : JValue :=
  let flat_original := flatten_object original []
  let merged := translations.foldl (fun m e => insertKV m e.1 e.2) flat_original
  unflatten_object merged

/-! ## The sync result accounting (src/cli/commands/sync_cmd.rs, execute_sync) -/

/-- The download condition of the counting loop in execute_sync: force is set
or the key is absent from the local scan of that language. -/
def countedAsDownloaded (force : Bool) (local_translations : FlatMap)
    (kv : Str × Str) : Bool :=
  force || !(lookupKV local_translations kv.1).isSome

/-- The statistics loop of execute_sync (sync_cmd.rs lines 282-300): for every
language of the incoming translations and every key of that language, count it
as downloaded when force is set or the key is absent from the local scan of
that language, else count it as skipped.  Returns (downloaded, skipped). -/
def count_sync_stats (translations : TransList) (local_scan : TransList)
    (force : Bool) : Nat × Nat :=
  translations.foldl (fun counts e =>
    let local_translations := (lookupKV local_scan e.1).getD []
    e.2.foldl (fun c kv =>
      if countedAsDownloaded force local_translations kv then (c.1 + 1, c.2)
      else (c.1, c.2 + 1)) counts) (0, 0)

/-- Total number of incoming keys across all languages. -/
def totalKeys (translations : TransList) : Nat :=
  (translations.map (fun e => e.2.length)).sum

/-! ## The language mapper (src/core/language_mapping.rs) -/

structure LanguageMapper where
  local_to_backend : List (Str × Str)
  backend_to_local : List (Str × Str)

/-- LanguageMapper::new: build the forward table and the inverted reverse
table from the configured mapping in one pass (iteration order of the Rust
HashMap is arbitrary; the model iterates in list order). -/
def LanguageMapper.new (mapping : Option (List (Str × Str))) : LanguageMapper :=
  let mapping := mapping.getD []
  { local_to_backend := mapping.foldl (fun m e => insertKV m e.1 e.2) []
    backend_to_local := mapping.foldl (fun m e => insertKV m e.2 e.1) [] }

/-- to_backend: table lookup falling back to the unchanged code. -/
def LanguageMapper.to_backend (self : LanguageMapper) (local_code : Str) : Str :=
  (lookupKV self.local_to_backend local_code).getD local_code

/-- to_local: reverse table lookup falling back to the unchanged code. -/
def LanguageMapper.to_local (self : LanguageMapper) (backend_code : Str) : Str :=
  (lookupKV self.backend_to_local backend_code).getD backend_code

/-- Replace the value bound to a key by applying a function to it (models a
get_mut followed by mutation on a Rust HashMap entry). -/
def modifyAt {β : Type} (m : List (Str × β)) (k : Str) (f : β → β) :
    List (Str × β) :=
  m.map (fun e => if e.1 = k then (e.1, f e.2) else e)

/-- The body of the re-keying loops of apply_to_translations and
reverse_translations: insert an empty map for the target code if absent, then
extend the map bound to the target code with the source language map. -/
def rekeyStep (target : Str → Str) (result : TransList) (e : Str × FlatMap) :
    TransList :=
  let code := target e.1
  let result :=
    if (lookupKV result code).isSome then result
    else insertKV result code []
  modifyAt result code (fun m => overlayKV m e.2)

/-- apply_to_translations: re-key every language through to_backend; when two
local codes collide on the same backend code their maps are unioned via
extend, the later processed one winning on key collisions. -/
def LanguageMapper.apply_to_translations (self : LanguageMapper)
    (translations : TransList) : TransList :=
  translations.foldl (rekeyStep (fun code => self.to_backend code)) []

/-- reverse_translations: the same collision-merging fold through to_local. -/
def LanguageMapper.reverse_translations (self : LanguageMapper)
    (translations : TransList) : TransList :=
  translations.foldl (rekeyStep (fun code => self.to_local code)) []

/-! ## The directory scanner (src/core/scanner.rs) -/

/-- The outcome of reading and parsing one file of a language directory.  The
file system and the JSON parser are effectful collaborators; the model takes
their per-file outcomes as input (parsed carries the JSON tree, failed covers
both read errors and parse errors). -/
inductive FileParse where
  | parsed (path : Str) (v : JValue)
  | failed (path : Str) (msg : Str)
deriving DecidableEq

/-- The relative path recorded for a file (scan records every discovered
file path, prefixed by its language code). -/
def FileParse.path : FileParse → Str
  | .parsed p _ => p
  | .failed p _ => p

/-- ScanResult of core/mod.rs. -/
structure ScanResult where
  translations : TransList
  files : List (Str × Str)
  key_count : Nat
deriving DecidableEq

/-- scan_language_dir of scanner.rs: flatten every successfully parsed file of
the directory and merge the flat pairs into the single language map; a failed
file only produces a warning and contributes nothing. -/
def scan_language_dir (lang_code : Str) (parse_results : List FileParse) :
    TransList × List (Str × Str) × Nat :=
  let lang_translations := parse_results.foldl (fun acc r =>
    match r with
    | .parsed _ v => overlayKV acc (flatten_object v [])
    | .failed _ _ => acc) []
  ([(lang_code, lang_translations)],
   parse_results.map (fun r => (lang_code, r.path)),
   lang_translations.length)

/-- scan_messages_dir of scanner.rs: scan every language directory and extend
the accumulated translation set, file list and key count. -/
def scan_messages_dir (lang_dirs : List (Str × List FileParse)) : ScanResult :=
  lang_dirs.foldl (fun acc d =>
    let r := scan_language_dir d.1 d.2
    { translations := overlayKV acc.translations r.1
      files := acc.files ++ r.2.1
      key_count := acc.key_count + r.2.2 }) ⟨[], [], 0⟩

/-! ## The import pipeline (src/cli/commands/import_cmd.rs) -/

/-- Batch size constant of import_cmd.rs. -/
def BATCH_SIZE : Nat := 50

/-- Inter-batch and backoff base delay in milliseconds. -/
def BATCH_DELAY_MS : Nat := 200

/-- Maximum retry count of import_cmd.rs. -/
def MAX_RETRIES : Nat := 3

/-- Rust slice chunks: consecutive runs of the given size, the last one
possibly shorter (the source collects the entries of a language map into a
vector and chunks it by BATCH_SIZE). -/
def chunksOf {α : Type} (n : Nat) : List α → List (List α)
  | [] => []
  | x :: xs => (x :: xs.take (n - 1)) :: chunksOf n (xs.drop (n - 1))
termination_by l => l.length
decreasing_by
  simp_wf
  have := List.length_drop (n - 1) xs
  omega

/-- ImportResult of core/mod.rs, with the error list kept structurally (the
exact formatted strings carry no logic). -/
inductive ErrEntry where
  | failedKeys (lang : Str) (batchNum : Nat) (firstTen : List Str)
  | moreCount (n : Nat)
  | batchFailed (lang : Str) (batchNum : Nat) (msg : Str)
deriving DecidableEq

structure ImportResult where
  added : Nat
  updated : Nat
  failed : Nat
  errors : List ErrEntry
deriving DecidableEq

/-- One response of client.push_translations: a parsed BatchPushResult or an
error, the latter flagged with whether is_rate_limit_error holds for it. -/
inductive PushResponse where
  | ok (addedKeys existedKeys failedKeys : List Str)
  | err (rateLimit : Bool) (msg : Str)
deriving DecidableEq

/-- The error entries recorded on a successful push that reports failed keys:
the first ten verbatim and a count of the remainder. -/
def failedKeyErrors (lang : Str) (batchNum : Nat) (failedKeys : List Str) :
    List ErrEntry :=
  if failedKeys.isEmpty then []
  else
    (ErrEntry.failedKeys lang batchNum (failedKeys.take 10)) ::
      (if failedKeys.length > 10 then [ErrEntry.moreCount (failedKeys.length - 10)]
       else [])

/-- The retry loop of execute_import for one batch (import_cmd.rs lines
237-308).  Consumes responses from the front of the response list; returns the
updated result, the recorded backoff wait times in milliseconds, and the
remaining responses.  A missing response is modeled as leaving the state
unchanged (the real client always answers). -/
def process_batch (lang : Str) (batchNum : Nat) (chunkLen : Nat) :
    Nat → List PushResponse → ImportResult → List Nat →
    ImportResult × List Nat × List PushResponse
  | retry_count, responses, result, waits =>
    if retry_count < MAX_RETRIES then
      match responses with
      | [] => (result, waits, [])
      | r :: rest =>
        match r with
        | .ok addedKeys existedKeys failedKeys =>
            ({ added := result.added + addedKeys.length
               updated := result.updated + existedKeys.length
               failed := result.failed + failedKeys.length
               errors := result.errors ++ failedKeyErrors lang batchNum failedKeys },
             waits, rest)
        | .err rateLimit msg =>
            if rateLimit ∧ retry_count < MAX_RETRIES - 1 then
              process_batch lang batchNum chunkLen (retry_count + 1) rest result
                (waits ++ [BATCH_DELAY_MS * ((retry_count + 1) * 2)])
            else
              ({ result with
                  failed := result.failed + chunkLen
                  errors := result.errors ++ [ErrEntry.batchFailed lang batchNum msg] },
               waits, rest)
    else (result, waits, responses)
termination_by rc => MAX_RETRIES - rc
decreasing_by
  simp_wf
  omega

/-- The loop of execute_import over the batches of one language: process each
batch in turn with a fresh retry counter, continuing with the remaining
responses (the inter-batch sleep does not affect the result accounting and is
not recorded here). -/
def import_batches (lang : Str) :
    List (List (Str × Str)) → Nat → List PushResponse → ImportResult → List Nat →
    ImportResult × List Nat × List PushResponse
  | [], _, responses, result, waits => (result, waits, responses)
  | chunk :: restChunks, batchNum, responses, result, waits =>
      let r := process_batch lang batchNum chunk.length 0 responses result waits
      import_batches lang restChunks (batchNum + 1) r.2.2 r.1 r.2.1

/-! ## Well-formedness predicates for the round-trip and merge laws -/

/-- The value is an object. -/
def JValue.isObj : JValue → Bool
  | .obj _ => true
  | _ => false

/-- The key is strictly below every key of the map (strict sortedness link of
the BTreeMap model). -/
def keyBelow (k : Str) : JFields → Bool
  | .fnil => true
  | .fcons k' _ rest => strLt k k' && keyBelow k rest

mutual
/-- A translation value: a string leaf, or a nonempty object of translation
values whose keys contain no dot, in strictly increasing key order (the
canonical BTreeMap ordering of any serde_json value). -/
def goodVal : JValue → Bool
  | .str _ => true
  | .obj fields =>
      (match fields with | .fnil => false | .fcons _ _ _ => true) && goodFields fields
  | _ => false
/-- Field lists of translation values: dot-free keys, strictly sorted. -/
def goodFields : JFields → Bool
  | .fnil => true
  | .fcons k v rest => noDot k && goodVal v && keyBelow k rest && goodFields rest
end

/-- At the root of the tree, an empty key may only be bound to a string (an
empty root key bound to an object is flattened with an empty path piece that
the empty-prefix check of flatten_recursive erases). -/
def rootEmptyOk : JFields → Bool
  | .fnil => true
  | .fcons k v rest =>
      (if k = [] then (match v with | .str _ => true | _ => false) else true)
        && rootEmptyOk rest

mutual
/-- The path entries of a tree: every string leaf together with its key path. -/
def pathsV : JValue → List (List Str × Str)
  | .str s => [([], s)]
  | .obj fields => pathsF fields
  | _ => []
def pathsF : JFields → List (List Str × Str)
  | .fnil => []
  | .fcons k v rest => (pathsV v).map (fun e => (k :: e.1, e.2)) ++ pathsF rest
end

/-- Folding the key extension over a segment list (the dot path a leaf gets). -/
def joinSegs (pre : Str) (segs : List Str) : Str := segs.foldl newKey pre

/-- Tree lookup along a segment path, returning the string leaf there. -/
def lookupPath : JFields → List Str → Option Str
  | _, [] => none
  | m, [p] =>
      match mapLookup m p with
      | some (.str s) => some s
      | _ => none
  | m, p :: rest =>
      match mapLookup m p with
      | some (.obj m') => lookupPath m' rest
      | _ => none

/-- Association lookup keyed by segment paths. -/
def lookupPathKey {β : Type} : List (List Str × β) → List Str → Option β
  | [], _ => none
  | (p', v) :: rest, p => if p = p' then some v else lookupPathKey rest p

/-- Along every strict ancestor of the path the map has an object or nothing
(the condition under which insert_into_nested actually places its value). -/
def freePath : JFields → List Str → Bool
  | _, [] => true
  | _, [_] => true
  | m, h :: rest =>
      match mapLookup m h with
      | some (.obj m') => freePath m' rest
      | some _ => false
      | none => true

/-- The first segment list is an initial segment of the second. -/
def segPre : List Str → List Str → Bool
  | [], _ => true
  | _ :: _, [] => false
  | a :: as, b :: bs => a = b && segPre as bs

/-- Neither key is a dot-path ancestor of the other (equal keys included). -/
def pathIndep (a b : Str) : Bool :=
  !(segPre (splitDot a) (splitDot b)) && !(segPre (splitDot b) (splitDot a))

/-- A key does not start with a dot (its first segment is empty only when it
is the whole key). -/
def headOkKey (k : Str) : Bool :=
  match splitDot k with
  | [] => true
  | [_] => true
  | h :: _ => !(h.isEmpty)

/-- Well-formed flat key set: pairwise dot-path independent keys, none
starting with a dot. -/
def flatKeysWF (F : FlatMap) : Prop :=
  (F.map Prod.fst).Pairwise (fun a b => pathIndep a b = true)
    ∧ ∀ k ∈ F.map Prod.fst, headOkKey k = true

/-- Strict sortedness plus dot-freeness plus string-or-object-only shape at
the root (goodFields) together with the root condition. -/
def goodRootFields (fields : JFields) : Bool :=
  goodFields fields && rootEmptyOk fields

/-- The per-value lookup that pathsV realizes: a string answers only the
empty residual path, an object delegates to the tree lookup. -/
def pathVal (v : JValue) (q : List Str) : Option Str :=
  match v with
  | .str s => if q = [] then some s else none
  | .obj fs => lookupPath fs q
  | _ => none

theorem lookupKV_insert_self {β : Type} (m : List (Str × β)) (k : Str) (v : β) :
    lookupKV (insertKV m k v) k = some v := by
  induction m with
  | nil => simp [insertKV, lookupKV]
  | cons e rest ih =>
      cases e with
      | mk k' v' =>
          by_cases h : k = k'
          · simp [insertKV, lookupKV, h]
          · rw [insertKV, if_neg h, lookupKV, if_neg h]
            exact ih

theorem lookupKV_insert_other {β : Type} (m : List (Str × β)) (k q : Str)
    (v : β) (hne : q ≠ k) :
    lookupKV (insertKV m k v) q = lookupKV m q := by
  induction m with
  | nil => simp [insertKV, lookupKV, hne]
  | cons e rest ih =>
      cases e with
      | mk k' v' =>
          by_cases h : k = k'
          · subst h
            simp [insertKV, lookupKV, hne]
          · simp only [insertKV, lookupKV, if_neg h]
            by_cases hq : q = k'
            · simp [lookupKV, hq]
            · simp [lookupKV, hq, ih]

theorem keys_insertKV {β : Type} (m : List (Str × β)) (k : Str) (v : β) :
    (insertKV m k v).map Prod.fst =
      if (lookupKV m k).isSome then m.map Prod.fst else m.map Prod.fst ++ [k] := by
  induction m with
  | nil => simp [insertKV, lookupKV]
  | cons e rest ih =>
      cases e with
      | mk k' v' =>
          by_cases h : k = k'
          · subst h
            simp [insertKV, lookupKV]
          · simp only [insertKV, lookupKV, if_neg h]
            by_cases hs : (lookupKV rest k).isSome <;> simp [h, hs, ih]

theorem splitDot_ne_nil (s : Str) : splitDot s ≠ [] := by
  induction s with
  | nil => simp [splitDot]
  | cons c cs ih =>
      simp only [splitDot]
      by_cases h : c = '.'
      · simp [h]
      · simp only [if_neg h]
        cases hs : splitDot cs with
        | nil => simp
        | cons p ps => simp

theorem splitDot_append_dot (x y : Str) :
    splitDot (x ++ '.' :: y) = splitDot x ++ splitDot y := by
  induction x with
  | nil => simp [splitDot]
  | cons c cs ih =>
      by_cases h : c = '.'
      · simp [splitDot, h, ih]
      · cases hs : splitDot cs with
        | nil => exact absurd hs (splitDot_ne_nil cs)
        | cons p ps =>
            have hl : splitDot (cs ++ '.' :: y) = p :: (ps ++ splitDot y) := by
              rw [ih, hs]; simp
            simp [splitDot, h, hl, hs]

theorem splitDot_noDot (s : Str) (h : noDot s = true) : splitDot s = [s] := by
  induction s with
  | nil => simp [splitDot]
  | cons c cs ih =>
      simp only [noDot, List.all_cons, Bool.and_eq_true, decide_eq_true_eq] at h
      have hc : c ≠ '.' := by simpa using h.1
      have := ih (by simpa [noDot] using h.2)
      simp [splitDot, hc, this]

theorem splitDot_segments_noDot (s : Str) :
    ∀ seg ∈ splitDot s, noDot seg = true := by
  induction s with
  | nil => simp [splitDot, noDot]
  | cons c cs ih =>
      by_cases h : c = '.'
      · intro seg hseg
        rw [splitDot, if_pos h] at hseg
        rcases List.mem_cons.mp hseg with hseg | hseg
        · simp [hseg, noDot]
        · exact ih seg hseg
      · cases hs : splitDot cs with
        | nil => exact absurd hs (splitDot_ne_nil cs)
        | cons p ps =>
            intro seg hseg
            rw [splitDot, if_neg h, hs] at hseg
            rcases List.mem_cons.mp hseg with hseg | hseg
            · subst hseg
              have hp : noDot p = true := ih p (by simp [hs])
              simp only [noDot, List.all_cons, Bool.and_eq_true, decide_eq_true_eq]
              exact ⟨by simpa using h, by simpa [noDot] using hp⟩
            · exact ih seg (by simp [hs, hseg])

theorem unsplitDot_splitDot (s : Str) : unsplitDot (splitDot s) = s := by
  induction s with
  | nil => simp [splitDot, unsplitDot]
  | cons c cs ih =>
      by_cases h : c = '.'
      · subst h
        simp only [splitDot, if_pos rfl]
        cases hs : splitDot cs with
        | nil => exact absurd hs (splitDot_ne_nil cs)
        | cons p ps =>
            rw [hs] at ih
            simp [unsplitDot, ih]
      · simp only [splitDot, if_neg h]
        cases hs : splitDot cs with
        | nil => exact absurd hs (splitDot_ne_nil cs)
        | cons p ps =>
            rw [hs] at ih
            cases ps with
            | nil => simp_all [unsplitDot]
            | cons q qs => simp_all [unsplitDot]

theorem splitDot_injective {a b : Str} (h : splitDot a = splitDot b) : a = b := by
  have := unsplitDot_splitDot a
  rw [h, unsplitDot_splitDot] at this
  exact this.symm

theorem strLt_irrefl (a : Str) : strLt a a = false := by
  induction a with
  | nil => rfl
  | cons c cs ih => simp [strLt, ih]

theorem strLt_ne {a b : Str} (h : strLt a b = true) : a ≠ b := by
  intro he
  subst he
  rw [strLt_irrefl] at h
  exact Bool.noConfusion h

theorem strLt_asymm {a b : Str} (h : strLt a b = true) : strLt b a = false := by
  induction a generalizing b with
  | nil =>
      cases b with
      | nil => rfl
      | cons d ds => rfl
  | cons c cs ih =>
      cases b with
      | nil => exact absurd h (by simp [strLt])
      | cons d ds =>
          by_cases h1 : c < d
          · have h2 : ¬ d < c := lt_asymm h1
            rw [strLt, if_neg h2, if_pos h1]
          · by_cases h2 : d < c
            · rw [strLt, if_neg h1, if_pos h2] at h
              exact Bool.noConfusion h
            · rw [strLt, if_neg h1, if_neg h2] at h
              rw [strLt, if_neg h2, if_neg h1]
              exact ih h

theorem strLt_total (a b : Str) :
    strLt a b = true ∨ a = b ∨ strLt b a = true := by
  induction a generalizing b with
  | nil =>
      cases b with
      | nil => exact Or.inr (Or.inl rfl)
      | cons d ds => exact Or.inl rfl
  | cons c cs ih =>
      cases b with
      | nil => exact Or.inr (Or.inr rfl)
      | cons d ds =>
          rcases lt_trichotomy c d with h | h | h
          · exact Or.inl (by simp [strLt, h])
          · subst h
            rcases ih ds with h2 | h2 | h2
            · exact Or.inl (by simp [strLt, h2])
            · exact Or.inr (Or.inl (by rw [h2]))
            · exact Or.inr (Or.inr (by simp [strLt, h2]))
          · exact Or.inr (Or.inr (by simp [strLt, h]))

theorem fieldsApp_fnil : ∀ (m : JFields), fieldsApp m .fnil = m
  | .fnil => rfl
  | .fcons k v rest => by simp [fieldsApp, fieldsApp_fnil rest]

theorem fieldKeys_app : ∀ (m g : JFields),
    fieldKeys (fieldsApp m g) = fieldKeys m ++ fieldKeys g
  | .fnil, g => by simp [fieldsApp, fieldKeys]
  | .fcons k v rest, g => by simp [fieldsApp, fieldKeys, fieldKeys_app rest g]

/-- Inserting a key above every key of the map appends it at the end. -/
theorem mapInsert_append : ∀ (m : JFields) (k : Str) (v : JValue),
    (∀ x ∈ fieldKeys m, strLt x k = true) →
    mapInsert m k v = fieldsApp m (.fcons k v .fnil)
  | .fnil, k, v, _ => rfl
  | .fcons k' v' rest, k, v, h => by
      have hk' : strLt k' k = true := h k' (by simp [fieldKeys])
      have h1 : strLt k k' = false := strLt_asymm hk'
      have h2 : k ≠ k' := fun he => strLt_ne hk' he.symm
      rw [mapInsert, h1, if_neg (by simp), if_neg h2, fieldsApp]
      rw [mapInsert_append rest k v (fun x hx => h x (by simp [fieldKeys, hx]))]

theorem mapLookup_insert_self : ∀ (m : JFields) (k : Str) (v : JValue),
    mapLookup (mapInsert m k v) k = some v
  | .fnil, k, v => by simp [mapInsert, mapLookup]
  | .fcons k' v' rest, k, v => by
      by_cases h1 : strLt k k' = true
      · simp [mapInsert, h1, mapLookup]
      · by_cases h2 : k = k'
        · subst h2
          simp [mapInsert, strLt_irrefl, mapLookup]
        · rw [mapInsert, if_neg (by simp [h1]), if_neg h2, mapLookup, if_neg h2]
          exact mapLookup_insert_self rest k v

theorem mapLookup_insert_other : ∀ (m : JFields) (k q : Str) (v : JValue),
    q ≠ k → mapLookup (mapInsert m k v) q = mapLookup m q
  | .fnil, k, q, v, hne => by simp [mapInsert, mapLookup, hne]
  | .fcons k' v' rest, k, q, v, hne => by
      by_cases h1 : strLt k k' = true
      · simp only [mapInsert, if_pos h1, mapLookup, if_neg hne]
      · by_cases h2 : k = k'
        · subst h2
          have he : mapInsert (JFields.fcons k v' rest) k v =
              JFields.fcons k v rest := by
            rw [mapInsert, if_neg (by simp [strLt_irrefl]), if_pos rfl]
          rw [he, mapLookup, if_neg hne, mapLookup, if_neg hne]
        · rw [mapInsert, if_neg (by simp [h1]), if_neg h2]
          by_cases hq : q = k'
          · simp [mapLookup, hq]
          · simp [mapLookup, hq, mapLookup_insert_other rest k q v hne]

theorem count_sync_inner (p : Str × Str → Bool) (l : FlatMap) :
    ∀ (d s : Nat),
    l.foldl (fun c kv => if p kv then (c.1 + 1, c.2) else (c.1, c.2 + 1)) (d, s)
      = (d + l.countP p, s + l.countP (fun kv => !(p kv))) := by
  induction l with
  | nil => intro d s; simp
  | cons kv rest ih =>
      intro d s
      by_cases h : p kv = true
      · simp only [List.foldl_cons, if_pos h, ih, List.countP_cons, h,
          Bool.not_true, if_true, Prod.mk.injEq]
        refine ⟨by omega, by simp⟩
      · have hb : p kv = false := by simpa using h
        simp only [List.foldl_cons, if_neg h, ih, List.countP_cons, hb,
          Bool.not_false, Prod.mk.injEq]
        refine ⟨by simp, by simp; omega⟩

theorem count_sync_stats_spec (translations : TransList)
    (local_scan : TransList) (force : Bool) :
    ∀ (d s : Nat),
    translations.foldl (fun counts e =>
      let local_translations := (lookupKV local_scan e.1).getD []
      e.2.foldl (fun c kv =>
        if countedAsDownloaded force local_translations kv then (c.1 + 1, c.2)
        else (c.1, c.2 + 1)) counts) (d, s)
      = (d + (translations.map (fun e =>
            e.2.countP (countedAsDownloaded force ((lookupKV local_scan e.1).getD [])))).sum,
         s + (translations.map (fun e =>
            e.2.countP (fun kv => !(countedAsDownloaded force ((lookupKV local_scan e.1).getD []) kv)))).sum) := by
  induction translations with
  | nil => intro d s; simp
  | cons e rest ih =>
      intro d s
      simp only [List.foldl_cons, count_sync_inner, ih, List.map_cons,
        List.sum_cons, Prod.mk.injEq]
      refine ⟨by omega, by omega⟩

/-! # Theorems -/

theorem countP_add_countP_not {α : Type} (p : α → Bool) (l : List α) :
    l.countP p + l.countP (fun a => !(p a)) = l.length := by
  induction l with
  | nil => simp
  | cons a rest ih =>
      by_cases h : p a = true
      · simp [List.countP_cons, h, ← ih]; omega
      · have hb : p a = false := by simpa using h
        simp [List.countP_cons, hb, ← ih]; omega

/-- C4: the merged tree produced by the sync write path does not depend on the
force flag; merge_translations_with_structure ignores force entirely (the
source keeps the parameter only for API compatibility), so the trees written
are identical for force and no-force and force can only influence the
reported counts. -/
theorem c4_merge_independent_of_force (original : JValue)
    (translations : FlatMap) :
    merge_translations_with_structure original translations true =
      merge_translations_with_structure original translations false := rfl

/-- C3 counterexample: take the input map with keys "a" (value "x") and "a.b"
(value "y"), processed in that order.  When "a.b" is processed, the
intermediate segment "a" is already bound to the non-object value "x".  The
claim asserts the binding is silently overwritten with a new object so that
"y" is inserted beneath it, which would give the object a -> (b -> "y"); the
code instead keeps "a" bound to "x" and silently drops "y". -/
theorem c3_counterexample :
    unflatten_object [(strOf "a", strOf "x"), (strOf "a.b", strOf "y")]
        = .obj (.fcons (strOf "a") (.str (strOf "x")) .fnil)
      ∧ unflatten_object [(strOf "a", strOf "x"), (strOf "a.b", strOf "y")]
        ≠ .obj (.fcons (strOf "a")
            (.obj (.fcons (strOf "b") (.str (strOf "y")) .fnil)) .fnil) :=
  ⟨by decide, by decide⟩

/-- C3 (amended): when the input to unflatten_object contains two keys where
one is a structural ancestor of the other and an intermediate segment was
already bound to a non-object value by a previously processed key, the later
key and its value are silently dropped: insert_into_nested leaves the map,
including the previous non-object binding, completely unchanged. -/
theorem c3_insert_into_nested_drops (m : JFields) (head : Str)
    (tail : List Str) (value : Str) (w : JValue)
    (ht : tail ≠ []) (hw : mapLookup m head = some w)
    (hobj : w.isObj = false) :
    insert_into_nested m (head :: tail) value = m := by
  cases tail with
  | nil => exact absurd rfl ht
  | cons t ts =>
      cases w with
      | obj g => simp [JValue.isObj] at hobj
      | str s => simp [insert_into_nested, hw]
      | num => simp [insert_into_nested, hw]
      | boolean b => simp [insert_into_nested, hw]
      | arr => simp [insert_into_nested, hw]
      | null => simp [insert_into_nested, hw]

theorem c3_insert_into_nested_drops_witness :
    (([strOf "b"] : List Str) ≠ [])
    ∧ mapLookup (.fcons (strOf "a") (.str (strOf "x")) .fnil) (strOf "a")
        = some (.str (strOf "x"))
    ∧ (JValue.str (strOf "x")).isObj = false
    ∧ insert_into_nested (.fcons (strOf "a") (.str (strOf "x")) .fnil)
        (strOf "a" :: [strOf "b"]) (strOf "y")
        = .fcons (strOf "a") (.str (strOf "x")) .fnil :=
  ⟨by decide, by decide, by decide,
    c3_insert_into_nested_drops (.fcons (strOf "a") (.str (strOf "x")) .fnil)
      (strOf "a") [strOf "b"] (strOf "y") (.str (strOf "x"))
      (by decide) (by decide) (by decide)⟩

/-- C5: in the sync result accounting, every incoming key of every language is
counted as downloaded exactly when force is set or the key is absent from that
language in the local scan, and as skipped otherwise; consequently downloaded
plus skipped equals the total number of incoming keys. -/
theorem c5_sync_counts (translations local_scan : TransList) (force : Bool) :
    (count_sync_stats translations local_scan force).1
        + (count_sync_stats translations local_scan force).2
        = totalKeys translations
    ∧ (count_sync_stats translations local_scan force).1
        = (translations.map (fun e =>
            e.2.countP (countedAsDownloaded force ((lookupKV local_scan e.1).getD [])))).sum
    ∧ (count_sync_stats translations local_scan force).2
        = (translations.map (fun e =>
            e.2.countP (fun kv =>
              !(countedAsDownloaded force ((lookupKV local_scan e.1).getD []) kv)))).sum := by
  have h := count_sync_stats_spec translations local_scan force 0 0
  have h1 : (count_sync_stats translations local_scan force).1
      = (translations.map (fun e =>
          e.2.countP (countedAsDownloaded force ((lookupKV local_scan e.1).getD [])))).sum := by
    rw [count_sync_stats, h]
    simp
  have h2 : (count_sync_stats translations local_scan force).2
      = (translations.map (fun e =>
          e.2.countP (fun kv =>
            !(countedAsDownloaded force ((lookupKV local_scan e.1).getD []) kv)))).sum := by
    rw [count_sync_stats, h]
    simp
  refine ⟨?_, h1, h2⟩
  rw [h1, h2]
  clear h h1 h2
  induction translations with
  | nil => simp [totalKeys]
  | cons e rest ih =>
      simp only [List.map_cons, List.sum_cons, totalKeys] at ih ⊢
      rw [← countP_add_countP_not
        (countedAsDownloaded force ((lookupKV local_scan e.1).getD [])) e.2]
      omega

/-- Peeling one batch: for a positive batch size and a nonempty list, the
first batch is the first n entries and the rest is chunked from the n-th. -/
theorem chunksOf_cons_eq {α : Type} (n : Nat) (hn : 0 < n) (xs : List α)
    (hxs : xs ≠ []) :
    chunksOf n xs = xs.take n :: chunksOf n (xs.drop n) := by
  cases xs with
  | nil => exact absurd rfl hxs
  | cons x l =>
      cases n with
      | zero => omega
      | succ m =>
          rw [chunksOf]
          simp

theorem chunksOf_eq_nil_iff {α : Type} (n : Nat) (xs : List α) :
    chunksOf n xs = [] ↔ xs = [] := by
  cases xs with
  | nil => simp [chunksOf]
  | cons x l => rw [chunksOf]; simp

theorem chunksOf_flatten {α : Type} (n : Nat) :
    ∀ (xs : List α), (chunksOf n xs).flatten = xs
  | [] => by simp [chunksOf]
  | x :: xs => by
      rw [chunksOf]
      simp [chunksOf_flatten n (xs.drop (n - 1))]
termination_by xs => xs.length
decreasing_by
  simp_wf
  have := List.length_drop (n - 1) xs
  omega

theorem chunksOf_dropLast_length {α : Type} (n : Nat) (hn : 0 < n) :
    ∀ (xs : List α), ∀ c ∈ (chunksOf n xs).dropLast, c.length = n
  | [] => by simp [chunksOf]
  | x :: xs => by
      intro c hc
      rw [chunksOf] at hc
      cases hrest : chunksOf n (xs.drop (n - 1)) with
      | nil => rw [hrest] at hc; simp at hc
      | cons r rs =>
          rw [hrest, List.dropLast_cons_of_ne_nil (by simp)] at hc
          rcases List.mem_cons.mp hc with hc | hc
          · subst hc
            have hne : xs.drop (n - 1) ≠ [] := by
              intro hd
              rw [hd] at hrest
              simp [chunksOf] at hrest
            have hlen : n - 1 < xs.length := by
              by_contra hcon
              exact hne (List.drop_eq_nil_of_le (by omega))
            simp [List.length_take]
            omega
          · have := chunksOf_dropLast_length n hn (xs.drop (n - 1))
            rw [hrest] at this
            exact this c hc
termination_by xs => xs.length
decreasing_by
  simp_wf
  have := List.length_drop (n - 1) xs
  omega

/-- C7: splitting the entries of a language map into batches of BATCH_SIZE
(50) yields, for a map of 120 entries, exactly the batch sizes 50, 50, 20 in
that order; in general the batches concatenate back to the entry list (they
partition it) and every batch except possibly the last has exactly 50
entries. -/
theorem c7_batching (entries : FlatMap) :
    (entries.length = 120 →
      (chunksOf BATCH_SIZE entries).map List.length = [50, 50, 20])
    ∧ (chunksOf BATCH_SIZE entries).flatten = entries
    ∧ ∀ c ∈ (chunksOf BATCH_SIZE entries).dropLast, c.length = BATCH_SIZE := by
  refine ⟨?_, chunksOf_flatten _ _,
    chunksOf_dropLast_length BATCH_SIZE (by simp [BATCH_SIZE]) entries⟩
  intro h
  have h50 : (0 : Nat) < BATCH_SIZE := by simp [BATCH_SIZE]
  rw [chunksOf_cons_eq BATCH_SIZE h50 entries
      (by intro he; rw [he] at h; simp at h)]
  rw [chunksOf_cons_eq BATCH_SIZE h50 (entries.drop BATCH_SIZE)
      (by intro he; have := congrArg List.length he; simp [h, BATCH_SIZE] at this)]
  rw [chunksOf_cons_eq BATCH_SIZE h50 ((entries.drop BATCH_SIZE).drop BATCH_SIZE)
      (by intro he; have := congrArg List.length he; simp [h, BATCH_SIZE] at this)]
  have hz : (((entries.drop BATCH_SIZE).drop BATCH_SIZE).drop BATCH_SIZE) = [] :=
    List.drop_eq_nil_of_le (by simp [h, BATCH_SIZE])
  rw [hz]
  simp [List.length_take, h, BATCH_SIZE, chunksOf]

theorem c7_batching_witness :
    ((List.replicate 120 (strOf "k", strOf "v")).length = 120)
    ∧ (chunksOf BATCH_SIZE (List.replicate 120 (strOf "k", strOf "v"))).map
        List.length = [50, 50, 20] :=
  ⟨by simp, (c7_batching (List.replicate 120 (strOf "k", strOf "v"))).1 (by simp)⟩

/-- The translations accumulated by the directory fold of scan_messages_dir
depend only on the translations component of the accumulator. -/
theorem scanDirs_translations_congr (ds : List (Str × List FileParse)) :
    ∀ (i1 i2 : ScanResult), i1.translations = i2.translations →
    (ds.foldl (fun acc d =>
      let r := scan_language_dir d.1 d.2
      { translations := overlayKV acc.translations r.1
        files := acc.files ++ r.2.1
        key_count := acc.key_count + r.2.2 }) i1).translations
    = (ds.foldl (fun acc d =>
      let r := scan_language_dir d.1 d.2
      { translations := overlayKV acc.translations r.1
        files := acc.files ++ r.2.1
        key_count := acc.key_count + r.2.2 }) i2).translations := by
  induction ds with
  | nil => intro i1 i2 h; simpa using h
  | cons d rest ih =>
      intro i1 i2 h
      simp only [List.foldl_cons]
      exact ih _ _ (by simp [h])

/-- The key count accumulated by the directory fold of scan_messages_dir
depends only on the key count component of the accumulator. -/
theorem scanDirs_key_count_congr (ds : List (Str × List FileParse)) :
    ∀ (i1 i2 : ScanResult), i1.key_count = i2.key_count →
    (ds.foldl (fun acc d =>
      let r := scan_language_dir d.1 d.2
      { translations := overlayKV acc.translations r.1
        files := acc.files ++ r.2.1
        key_count := acc.key_count + r.2.2 }) i1).key_count
    = (ds.foldl (fun acc d =>
      let r := scan_language_dir d.1 d.2
      { translations := overlayKV acc.translations r.1
        files := acc.files ++ r.2.1
        key_count := acc.key_count + r.2.2 }) i2).key_count := by
  induction ds with
  | nil => intro i1 i2 h; simpa using h
  | cons d rest ih =>
      intro i1 i2 h
      simp only [List.foldl_cons]
      exact ih _ _ (by simp [h])

/-- A failed file contributes nothing to the language map of its directory. -/
theorem scan_language_dir_skips_failed (lang : Str) (fs1 fs2 : List FileParse)
    (p msg : Str) :
    (scan_language_dir lang (fs1 ++ .failed p msg :: fs2)).1
        = (scan_language_dir lang (fs1 ++ fs2)).1
      ∧ (scan_language_dir lang (fs1 ++ .failed p msg :: fs2)).2.2
        = (scan_language_dir lang (fs1 ++ fs2)).2.2 := by
  constructor <;> simp [scan_language_dir, List.foldl_append]

/-- C9: a parse or read failure of an individual file is non-fatal for
scanning.  The scan of a directory tree in which one file of one language
fails yields exactly the same translation set (and total key count) as the
scan of the same tree without that file: the failing file contributes no
keys, while every key of every other file of the same language and of all
other languages is untouched. -/
theorem c9_scan_failure_nonfatal (pre post : List (Str × List FileParse))
    (lang : Str) (fs1 fs2 : List FileParse) (p msg : Str) :
    (scan_messages_dir (pre ++ (lang, fs1 ++ .failed p msg :: fs2) :: post)).translations
        = (scan_messages_dir (pre ++ (lang, fs1 ++ fs2) :: post)).translations
      ∧ (scan_messages_dir (pre ++ (lang, fs1 ++ .failed p msg :: fs2) :: post)).key_count
        = (scan_messages_dir (pre ++ (lang, fs1 ++ fs2) :: post)).key_count := by
  constructor
  · rw [scan_messages_dir, scan_messages_dir, List.foldl_append, List.foldl_append,
      List.foldl_cons, List.foldl_cons]
    apply scanDirs_translations_congr
    simp [(scan_language_dir_skips_failed lang fs1 fs2 p msg).1]
  · rw [scan_messages_dir, scan_messages_dir, List.foldl_append, List.foldl_append,
      List.foldl_cons, List.foldl_cons]
    apply scanDirs_key_count_congr
    simp [(scan_language_dir_skips_failed lang fs1 fs2 p msg).2]

theorem insertKV_of_lookup_none {β : Type} (m : List (Str × β)) (k : Str)
    (v : β) (h : lookupKV m k = none) : insertKV m k v = m ++ [(k, v)] := by
  induction m with
  | nil => rfl
  | cons e rest ih =>
      cases e with
      | mk k' v' =>
          rw [lookupKV] at h
          by_cases hk : k = k'
          · rw [if_pos hk] at h
            exact absurd h (by simp)
          · rw [if_neg hk] at h
            rw [insertKV, if_neg hk, ih h]
            simp

theorem lookupKV_append {β : Type} (m1 m2 : List (Str × β)) (k : Str) :
    lookupKV (m1 ++ m2) k =
      match lookupKV m1 k with
      | some v => some v
      | none => lookupKV m2 k := by
  induction m1 with
  | nil => simp [lookupKV]
  | cons e rest ih =>
      cases e with
      | mk k' v' =>
          by_cases hk : k = k'
          · rw [List.cons_append, lookupKV, if_pos hk, lookupKV, if_pos hk]
          · rw [List.cons_append, lookupKV, if_neg hk, lookupKV, if_neg hk, ih]

theorem lookupKV_eq_none_iff {β : Type} (m : List (Str × β)) (k : Str) :
    lookupKV m k = none ↔ k ∉ m.map Prod.fst := by
  induction m with
  | nil => simp [lookupKV]
  | cons e rest ih =>
      cases e with
      | mk k' v' =>
          by_cases hk : k = k'
          · subst hk
            rw [lookupKV, if_pos rfl]
            simp only [List.map_cons, List.mem_cons, not_or]
            constructor
            · intro h; exact absurd h (by simp)
            · intro h; exact absurd trivial h.1
          · rw [lookupKV, if_neg hk, ih]
            simp only [List.map_cons, List.mem_cons, not_or]
            constructor
            · intro h; exact ⟨hk, h⟩
            · intro h; exact h.2

theorem lookupKV_of_mem_nodup {β : Type} :
    ∀ (m : List (Str × β)) (k : Str) (v : β),
    (k, v) ∈ m → (m.map Prod.fst).Nodup → lookupKV m k = some v
  | [], _, _, h, _ => absurd h (by simp)
  | (k', v') :: rest, k, v, hmem, hnodup => by
      rw [List.map_cons, List.nodup_cons] at hnodup
      rcases List.mem_cons.mp hmem with he | hmem'
      · rw [Prod.mk.injEq] at he
        rw [lookupKV, if_pos he.1, he.2]
      · by_cases hk : k = k'
        · subst hk
          have hmem2 : k ∈ rest.map Prod.fst :=
            List.mem_map.mpr ⟨(k, v), hmem', rfl⟩
          exact absurd hmem2 hnodup.1
        · rw [lookupKV, if_neg hk]
          exact lookupKV_of_mem_nodup rest k v hmem' hnodup.2

theorem foldl_insertKV_fresh {β : Type} :
    ∀ (mp acc : List (Str × β)),
    (∀ e ∈ mp, lookupKV acc e.1 = none) → (mp.map Prod.fst).Nodup →
    mp.foldl (fun m e => insertKV m e.1 e.2) acc = acc ++ mp
  | [], acc, _, _ => by simp
  | (k, v) :: rest, acc, hfresh, hnodup => by
      rw [List.map_cons, List.nodup_cons] at hnodup
      rw [List.foldl_cons]
      rw [insertKV_of_lookup_none acc k v (hfresh (k, v) (by simp))]
      have hstep := foldl_insertKV_fresh rest (acc ++ [(k, v)])
        (by
          intro f hf
          rw [lookupKV_append]
          rw [hfresh f (List.mem_cons_of_mem _ hf)]
          have hne : f.1 ≠ k := by
            intro he
            exact hnodup.1 (he ▸ List.mem_map.mpr ⟨f, hf, rfl⟩)
          rw [lookupKV, if_neg hne, lookupKV])
        hnodup.2
      rw [hstep, List.append_assoc, List.singleton_append]

/-- The two tables built by LanguageMapper::new from a duplicate-free mapping
are the mapping itself and its transpose. -/
theorem LanguageMapper_new_tables (mp : List (Str × Str))
    (hk : (mp.map Prod.fst).Nodup) (hv : (mp.map Prod.snd).Nodup) :
    (LanguageMapper.new (some mp)).local_to_backend = mp
      ∧ (LanguageMapper.new (some mp)).backend_to_local
          = mp.map (fun e => (e.2, e.1)) := by
  constructor
  · show mp.foldl (fun m e => insertKV m e.1 e.2) [] = mp
    rw [foldl_insertKV_fresh mp [] (by intro e _; rfl) hk]
    simp
  · show mp.foldl (fun m e => insertKV m e.2 e.1) [] = mp.map (fun e => (e.2, e.1))
    have hmapped : (mp.map (fun e => (e.2, e.1))).foldl
        (fun m e => insertKV m e.1 e.2) []
        = mp.foldl (fun m e => insertKV m e.2 e.1) [] := by
      rw [List.foldl_map]
    rw [← hmapped]
    rw [foldl_insertKV_fresh (mp.map (fun e => (e.2, e.1))) [] (by intro e _; rfl)
      (by rw [List.map_map]; exact hv)]
    simp

/-- C10: for a LanguageMapper built from a mapping in which no two local
codes share a backend code (and, it being a HashMap, no local code repeats),
to_local inverts to_backend on every mapped local code, and also on every
code foreign to both columns of the table, where both maps are the identity. -/
theorem c10_to_local_to_backend (mp : List (Str × Str)) (c : Str)
    (hk : (mp.map Prod.fst).Nodup) (hv : (mp.map Prod.snd).Nodup)
    (hc : (∃ b, (c, b) ∈ mp)
      ∨ (c ∉ mp.map Prod.fst ∧ c ∉ mp.map Prod.snd)) :
    (LanguageMapper.new (some mp)).to_local
      ((LanguageMapper.new (some mp)).to_backend c) = c := by
  obtain ⟨hfwd, hrev⟩ := LanguageMapper_new_tables mp hk hv
  rcases hc with ⟨b, hmem⟩ | ⟨hnk, hnv⟩
  · have h1 : (LanguageMapper.new (some mp)).to_backend c = b := by
      rw [LanguageMapper.to_backend, hfwd, lookupKV_of_mem_nodup mp c b hmem hk]
      rfl
    have h2 : (b, c) ∈ mp.map (fun e => (e.2, e.1)) :=
      List.mem_map.mpr ⟨(c, b), hmem, rfl⟩
    rw [h1, LanguageMapper.to_local, hrev,
      lookupKV_of_mem_nodup _ b c h2 (by rw [List.map_map]; exact hv)]
    rfl
  · have h1 : (LanguageMapper.new (some mp)).to_backend c = c := by
      rw [LanguageMapper.to_backend, hfwd,
        (lookupKV_eq_none_iff mp c).mpr hnk]
      rfl
    have h2 : lookupKV (mp.map (fun e => (e.2, e.1))) c = none := by
      rw [lookupKV_eq_none_iff, List.map_map]
      exact hnv
    rw [h1, LanguageMapper.to_local, hrev, h2]
    rfl

theorem c10_to_local_to_backend_witness :
    (([(strOf "zh_CN", strOf "zh")].map Prod.fst).Nodup)
    ∧ (LanguageMapper.new (some [(strOf "zh_CN", strOf "zh")])).to_local
        ((LanguageMapper.new (some [(strOf "zh_CN", strOf "zh")])).to_backend
          (strOf "zh_CN")) = strOf "zh_CN" :=
  ⟨by decide,
    c10_to_local_to_backend [(strOf "zh_CN", strOf "zh")] (strOf "zh_CN")
      (by decide) (by decide) (Or.inl ⟨strOf "zh", by decide⟩)⟩

theorem modifyAt_cons_eq {β : Type} (k' : Str) (v' : β)
    (rest : List (Str × β)) (f : β → β) :
    modifyAt ((k', v') :: rest) k' f = (k', f v') :: modifyAt rest k' f := by
  simp [modifyAt]

theorem modifyAt_cons_ne {β : Type} (k k' : Str) (v' : β)
    (rest : List (Str × β)) (f : β → β) (h : k' ≠ k) :
    modifyAt ((k', v') :: rest) k f = (k', v') :: modifyAt rest k f := by
  simp [modifyAt, h]

theorem lookupKV_modifyAt_self {β : Type} (m : List (Str × β)) (k : Str)
    (f : β → β) :
    lookupKV (modifyAt m k f) k = (lookupKV m k).map f := by
  induction m with
  | nil => simp [modifyAt, lookupKV]
  | cons e rest ih =>
      cases e with
      | mk k' v' =>
          by_cases hk : k' = k
          · subst hk
            rw [modifyAt_cons_eq, lookupKV, if_pos rfl, lookupKV, if_pos rfl]
            rfl
          · have hk2 : k ≠ k' := fun he => hk he.symm
            rw [modifyAt_cons_ne _ _ _ _ _ hk, lookupKV, if_neg hk2, lookupKV,
              if_neg hk2]
            exact ih

theorem lookupKV_modifyAt_other {β : Type} (m : List (Str × β)) (k q : Str)
    (f : β → β) (hne : q ≠ k) :
    lookupKV (modifyAt m k f) q = lookupKV m q := by
  induction m with
  | nil => simp [modifyAt, lookupKV]
  | cons e rest ih =>
      cases e with
      | mk k' v' =>
          by_cases hk : k' = k
          · subst hk
            rw [modifyAt_cons_eq, lookupKV, if_neg hne, lookupKV, if_neg hne]
            exact ih
          · rw [modifyAt_cons_ne _ _ _ _ _ hk]
            by_cases hq : q = k'
            · rw [lookupKV, if_pos hq, lookupKV, if_pos hq]
            · rw [lookupKV, if_neg hq, lookupKV, if_neg hq]
              exact ih

theorem keys_modifyAt {β : Type} (m : List (Str × β)) (k : Str) (f : β → β) :
    (modifyAt m k f).map Prod.fst = m.map Prod.fst := by
  induction m with
  | nil => simp [modifyAt]
  | cons e rest ih =>
      cases e with
      | mk k' v' =>
          by_cases hk : k' = k
          · subst hk
            rw [modifyAt_cons_eq, List.map_cons, List.map_cons, ih]
          · rw [modifyAt_cons_ne _ _ _ _ _ hk, List.map_cons, List.map_cons, ih]

theorem rekeyStep_lookup_self (target : Str → Str) (R : TransList)
    (e : Str × FlatMap) :
    lookupKV (rekeyStep target R e) (target e.1)
      = some (overlayKV ((lookupKV R (target e.1)).getD []) e.2) := by
  rw [rekeyStep]
  cases hl : lookupKV R (target e.1) with
  | none =>
      rw [if_neg (by simp [hl])]
      rw [lookupKV_modifyAt_self, lookupKV_insert_self]
      rfl
  | some v =>
      rw [if_pos (by simp [hl])]
      rw [lookupKV_modifyAt_self, hl]
      rfl

theorem rekeyStep_lookup_other (target : Str → Str) (R : TransList)
    (e : Str × FlatMap) (q : Str) (hq : q ≠ target e.1) :
    lookupKV (rekeyStep target R e) q = lookupKV R q := by
  rw [rekeyStep]
  by_cases hs : (lookupKV R (target e.1)).isSome
  · rw [if_pos hs, lookupKV_modifyAt_other _ _ _ _ hq]
  · rw [if_neg hs, lookupKV_modifyAt_other _ _ _ _ hq,
      lookupKV_insert_other _ _ _ _ hq]

theorem rekeyStep_keys_nodup (target : Str → Str) (R : TransList)
    (e : Str × FlatMap) (h : (R.map Prod.fst).Nodup) :
    ((rekeyStep target R e).map Prod.fst).Nodup := by
  rw [rekeyStep, keys_modifyAt]
  by_cases hs : (lookupKV R (target e.1)).isSome
  · rw [if_pos hs]; exact h
  · rw [if_neg hs, keys_insertKV]
    rw [if_neg hs]
    have hnb : target e.1 ∉ R.map Prod.fst := by
      rw [← lookupKV_eq_none_iff]
      cases hl : lookupKV R (target e.1) with
      | none => rfl
      | some v => rw [hl] at hs; simp at hs
    simp [List.nodup_append, h, hnb]

/-- Invariant of the re-keying fold: the result keys stay duplicate-free, and
the entry of any target code accumulates, in processing order, the maps of
exactly the sources mapped onto that code. -/
theorem rekey_fold_lookup (target : Str → Str) :
    ∀ (ts R : TransList) (c : Str), (R.map Prod.fst).Nodup →
    ((ts.foldl (rekeyStep target) R).map Prod.fst).Nodup
    ∧ lookupKV (ts.foldl (rekeyStep target) R) c =
        (if (ts.filter (fun e => decide (target e.1 = c))) = []
         then lookupKV R c
         else some ((ts.filter (fun e => decide (target e.1 = c))).foldl
            (fun acc e => overlayKV acc e.2) ((lookupKV R c).getD [])))
  | [], R, c, hnodup => by simp [hnodup]
  | e :: ts, R, c, hnodup => by
      rw [List.foldl_cons]
      obtain ⟨ihnodup, ihlook⟩ :=
        rekey_fold_lookup target ts (rekeyStep target R e) c
          (rekeyStep_keys_nodup target R e hnodup)
      refine ⟨ihnodup, ?_⟩
      rw [ihlook]
      by_cases hbc : target e.1 = c
      · have hfc : (e :: ts).filter (fun e => decide (target e.1 = c))
            = e :: ts.filter (fun e => decide (target e.1 = c)) := by
          rw [List.filter_cons, if_pos (by simp [hbc])]
        rw [hfc]
        have hlook2 : lookupKV (rekeyStep target R e) c
            = some (overlayKV ((lookupKV R c).getD []) e.2) := by
          rw [← hbc]
          exact rekeyStep_lookup_self target R e
        by_cases hfe : (ts.filter (fun e => decide (target e.1 = c))) = []
        · rw [if_pos hfe, hlook2, if_neg (by simp), hfe, List.foldl_cons,
            List.foldl_nil]
        · rw [if_neg hfe, if_neg (by simp), List.foldl_cons, hlook2]
          rfl
      · have hfc : (e :: ts).filter (fun e => decide (target e.1 = c))
            = ts.filter (fun e => decide (target e.1 = c)) := by
          rw [List.filter_cons, if_neg (by simp [hbc])]
        rw [hfc, rekeyStep_lookup_other target R e c (fun he => hbc he.symm)]

/-- C8: apply_to_translations never produces two entries for the same remote
code, and the entry of a remote code is precisely the ordered union (via
extend, so the later-processed source wins on key collisions) of the maps of
exactly those source languages whose code maps onto it; in particular several
local codes colliding on one remote code yield exactly one merged entry. -/
theorem c8_apply_to_translations_union (self : LanguageMapper)
    (translations : TransList) (c : Str) :
    ((self.apply_to_translations translations).map Prod.fst).Nodup
    ∧ lookupKV (self.apply_to_translations translations) c =
        (if (translations.filter (fun e => decide (self.to_backend e.1 = c))) = []
         then none
         else some ((translations.filter
              (fun e => decide (self.to_backend e.1 = c))).foldl
            (fun acc e => overlayKV acc e.2) [])) := by
  obtain ⟨h1, h2⟩ :=
    rekey_fold_lookup (fun code => self.to_backend code) translations [] c (by simp)
  rw [LanguageMapper.apply_to_translations]
  exact ⟨h1, by simpa using h2⟩

/-- C6: on three consecutive rate-limit failures of one batch push, the retry
loop waits BATCH_DELAY_MS * 2 before the first retry and BATCH_DELAY_MS * 4
before the second (wait = base delay times twice the retry count), gives up
when the retry counter reaches MAX_RETRIES = 3, counts every key of the batch
as failed, appends one error entry, and the import loop then proceeds to the
next batch of the language with the remaining responses instead of aborting. -/
theorem c6_rate_limit_retries (lang : Str) (batchNum chunkLen : Nat)
    (m1 m2 m3 : Str) (rest : List PushResponse) (result : ImportResult)
    (waits : List Nat) (chunk : List (Str × Str))
    (chunks : List (List (Str × Str))) :
    process_batch lang batchNum chunkLen 0
        (.err true m1 :: .err true m2 :: .err true m3 :: rest) result waits
      = ({ result with
            failed := result.failed + chunkLen
            errors := result.errors ++ [ErrEntry.batchFailed lang batchNum m3] },
         waits ++ [BATCH_DELAY_MS * 2, BATCH_DELAY_MS * 4], rest)
    ∧ import_batches lang (chunk :: chunks) batchNum
        (.err true m1 :: .err true m2 :: .err true m3 :: rest) result waits
      = import_batches lang chunks (batchNum + 1) rest
          ({ result with
              failed := result.failed + chunk.length
              errors := result.errors ++ [ErrEntry.batchFailed lang batchNum m3] })
          (waits ++ [BATCH_DELAY_MS * 2, BATCH_DELAY_MS * 4]) := by
  have hstep : ∀ (n : Nat),
      process_batch lang batchNum n 0
          (.err true m1 :: .err true m2 :: .err true m3 :: rest) result waits
        = ({ result with
              failed := result.failed + n
              errors := result.errors ++ [ErrEntry.batchFailed lang batchNum m3] },
           waits ++ [BATCH_DELAY_MS * 2, BATCH_DELAY_MS * 4], rest) := by
    intro n
    rw [process_batch, if_pos (by simp [MAX_RETRIES])]
    rw [show ((0 : Nat) + 1) = 1 from rfl]
    rw [process_batch, if_pos (by simp [MAX_RETRIES])]
    rw [show ((1 : Nat) + 1) = 2 from rfl]
    rw [process_batch, if_pos (by simp [MAX_RETRIES])]
    simp [MAX_RETRIES]
  constructor
  · exact hstep chunkLen
  · rw [import_batches, hstep chunk.length]

/-! ### String-level lemmas for the round-trip law -/

theorem joinSegs_nil (pre : Str) : joinSegs pre [] = pre := rfl

theorem joinSegs_cons (pre a : Str) (p : List Str) :
    joinSegs pre (a :: p) = joinSegs (newKey pre a) p := rfl

theorem newKey_of_ne_nil (pre k : Str) (h : pre ≠ []) :
    newKey pre k = pre ++ '.' :: k := by
  rw [newKey, if_neg h]

theorem splitDot_joinSegs (p : List Str) :
    ∀ (pre : Str), pre ≠ [] → (∀ seg ∈ p, noDot seg = true) →
    splitDot (joinSegs pre p) = splitDot pre ++ p := by
  induction p with
  | nil => intro pre _ _; simp [joinSegs_nil]
  | cons a p ih =>
      intro pre hpre hsegs
      rw [joinSegs_cons, newKey_of_ne_nil pre a hpre]
      rw [ih (pre ++ '.' :: a) (by simp) (fun seg hseg => hsegs seg (by simp [hseg]))]
      rw [splitDot_append_dot, splitDot_noDot a (hsegs a (by simp))]
      simp

theorem splitDot_joinSegs_root (k : Str) (p : List Str)
    (hk : noDot k = true) (hsegs : ∀ seg ∈ p, noDot seg = true)
    (hroot : k ≠ [] ∨ p = []) :
    splitDot (joinSegs [] (k :: p)) = k :: p := by
  rw [joinSegs_cons]
  have hnew : newKey [] k = k := by rw [newKey, if_pos rfl]
  rw [hnew]
  rcases hroot with hne | hnil
  · rw [splitDot_joinSegs p k hne hsegs, splitDot_noDot k hk]
    simp
  · subst hnil
    rw [joinSegs_nil, splitDot_noDot k hk]

/-! ### Field-map helpers for the round-trip law -/

theorem keyBelow_mem : ∀ (fs : JFields) (k : Str), keyBelow k fs = true →
    ∀ x ∈ fieldKeys fs, strLt k x = true
  | .fnil, _, _, x, hx => by simp [fieldKeys] at hx
  | .fcons k' v' rest, k, h, x, hx => by
      rw [keyBelow, Bool.and_eq_true] at h
      rw [fieldKeys] at hx
      rcases List.mem_cons.mp hx with he | hmem
      · subst he; exact h.1
      · exact keyBelow_mem rest k h.2 x hmem

theorem mapLookup_eq_none : ∀ (m : JFields) (k : Str),
    (∀ x ∈ fieldKeys m, x ≠ k) → mapLookup m k = none
  | .fnil, _, _ => rfl
  | .fcons k' v' rest, k, h => by
      rw [mapLookup, if_neg (fun he => h k' (by simp [fieldKeys]) he.symm)]
      exact mapLookup_eq_none rest k
        (fun x hx => h x (by rw [fieldKeys]; exact List.mem_cons_of_mem _ hx))

theorem mapLookup_app_single : ∀ (m : JFields) (k : Str) (v : JValue),
    (∀ x ∈ fieldKeys m, x ≠ k) →
    mapLookup (fieldsApp m (.fcons k v .fnil)) k = some v
  | .fnil, k, v, _ => by rw [fieldsApp, mapLookup, if_pos rfl]
  | .fcons k' v' rest, k, v, h => by
      rw [fieldsApp, mapLookup,
        if_neg (fun he => h k' (by simp [fieldKeys]) he.symm)]
      exact mapLookup_app_single rest k v
        (fun x hx => h x (by rw [fieldKeys]; exact List.mem_cons_of_mem _ hx))

theorem mapInsert_app_single : ∀ (m : JFields) (k : Str) (w v : JValue),
    (∀ x ∈ fieldKeys m, strLt x k = true) →
    mapInsert (fieldsApp m (.fcons k w .fnil)) k v
      = fieldsApp m (.fcons k v .fnil)
  | .fnil, k, w, v, _ => by
      rw [fieldsApp, fieldsApp, mapInsert, if_neg (by simp [strLt_irrefl]),
        if_pos rfl]
  | .fcons k' v' rest, k, w, v, h => by
      have hk' : strLt k' k = true := h k' (by simp [fieldKeys])
      rw [fieldsApp, mapInsert, if_neg (by simp [strLt_asymm hk']),
        if_neg (fun he => strLt_ne hk' he.symm), fieldsApp]
      rw [mapInsert_app_single rest k w v
        (fun x hx => h x (by rw [fieldKeys]; exact List.mem_cons_of_mem _ hx))]

theorem fieldsApp_assoc : ∀ (a b c : JFields),
    fieldsApp (fieldsApp a b) c = fieldsApp a (fieldsApp b c)
  | .fnil, _, _ => rfl
  | .fcons k v rest, b, c => by
      rw [fieldsApp, fieldsApp, fieldsApp, fieldsApp_assoc rest b c]

theorem foldl_congr_mem {α β : Type} (l : List α) (f g : β → α → β) :
    (∀ a ∈ l, ∀ acc, f acc a = g acc a) →
    ∀ (init : β), l.foldl f init = l.foldl g init := by
  induction l with
  | nil => intro _ init; rfl
  | cons a rest ih =>
      intro h init
      rw [List.foldl_cons, List.foldl_cons, h a (by simp) init]
      exact ih (fun a ha acc => h a (List.mem_cons_of_mem _ ha) acc) _

/-! ### Shape of the path entries of a good tree -/

theorem goodVal_obj_fcons (k : Str) (v : JValue) (rest : JFields) :
    goodVal (.obj (.fcons k v rest)) = goodFields (.fcons k v rest) := by
  rw [show goodVal (.obj (.fcons k v rest))
      = (true && goodFields (.fcons k v rest)) from rfl, Bool.true_and]

theorem goodFields_fcons (k : Str) (v : JValue) (rest : JFields) :
    goodFields (.fcons k v rest)
      = (noDot k && goodVal v && keyBelow k rest && goodFields rest) := rfl

theorem goodFields_fcons_parts (k : Str) (v : JValue) (rest : JFields)
    (h : goodFields (.fcons k v rest) = true) :
    noDot k = true ∧ goodVal v = true ∧ keyBelow k rest = true
      ∧ goodFields rest = true := by
  rw [goodFields_fcons, Bool.and_eq_true, Bool.and_eq_true, Bool.and_eq_true] at h
  exact ⟨h.1.1.1, h.1.1.2, h.1.2, h.2⟩

theorem rootEmptyOk_aux (k : Str) (rest : JFields)
    (h : ((if k = [] then false else true) && rootEmptyOk rest) = true) :
    k ≠ [] ∧ rootEmptyOk rest = true := by
  by_cases hk : k = []
  · rw [if_pos hk, Bool.false_and] at h
    exact Bool.noConfusion h
  · rw [if_neg hk, Bool.true_and] at h
    exact ⟨hk, h⟩

theorem rootEmptyOk_fcons_parts (k : Str) (v : JValue) (rest : JFields)
    (h : rootEmptyOk (.fcons k v rest) = true) :
    (k = [] → ∃ s, v = .str s) ∧ rootEmptyOk rest = true := by
  cases v with
  | str s =>
      have h2 : ((if k = [] then true else true) && rootEmptyOk rest) = true := h
      rw [ite_self, Bool.true_and] at h2
      exact ⟨fun _ => ⟨s, rfl⟩, h2⟩
  | obj fs2 =>
      obtain ⟨hne, hr⟩ := rootEmptyOk_aux k rest h
      exact ⟨fun hkk => absurd hkk hne, hr⟩
  | num =>
      obtain ⟨hne, hr⟩ := rootEmptyOk_aux k rest h
      exact ⟨fun hkk => absurd hkk hne, hr⟩
  | boolean b =>
      obtain ⟨hne, hr⟩ := rootEmptyOk_aux k rest h
      exact ⟨fun hkk => absurd hkk hne, hr⟩
  | arr =>
      obtain ⟨hne, hr⟩ := rootEmptyOk_aux k rest h
      exact ⟨fun hkk => absurd hkk hne, hr⟩
  | null =>
      obtain ⟨hne, hr⟩ := rootEmptyOk_aux k rest h
      exact ⟨fun hkk => absurd hkk hne, hr⟩

mutual
theorem pathsV_ne_nil : ∀ (v : JValue), goodVal v = true → pathsV v ≠ []
  | .str s, _ => by rw [pathsV]; simp
  | .obj fs, h => by
      cases fs with
      | fnil => exact Bool.noConfusion h
      | fcons k v rest =>
          rw [goodVal_obj_fcons] at h
          have hv : goodVal v = true := (goodFields_fcons_parts k v rest h).2.1
          rw [pathsV, pathsF]
          intro hcon
          rcases List.append_eq_nil.mp hcon with ⟨h1, _⟩
          exact pathsV_ne_nil v hv (List.map_eq_nil_iff.mp h1)
  | .num, h => Bool.noConfusion h
  | .boolean b, h => Bool.noConfusion h
  | .arr, h => Bool.noConfusion h
  | .null, h => Bool.noConfusion h
end

/-- Every path entry of a field list starts with one of its keys. -/
theorem pathsF_heads : ∀ (fs : JFields), ∀ pr ∈ pathsF fs,
    ∃ k p, pr.1 = k :: p ∧ k ∈ fieldKeys fs
  | .fnil, pr, hpr => by rw [pathsF] at hpr; exact absurd hpr (by simp)
  | .fcons k v rest, pr, hpr => by
      rw [pathsF] at hpr
      rcases List.mem_append.mp hpr with hl | hr
      · obtain ⟨q, _, hq⟩ := List.mem_map.mp hl
        exact ⟨k, q.1, by rw [← hq], by rw [fieldKeys]; simp⟩
      · obtain ⟨k', p', h1, h2⟩ := pathsF_heads rest pr hr
        exact ⟨k', p', h1, by rw [fieldKeys]; exact List.mem_cons_of_mem _ h2⟩

mutual
theorem pathsV_segs_noDot : ∀ (v : JValue), goodVal v = true →
    ∀ pr ∈ pathsV v, ∀ seg ∈ pr.1, noDot seg = true
  | .str s, _, pr, hpr, seg, hseg => by
      rw [pathsV] at hpr
      rcases List.mem_singleton.mp hpr with rfl
      exact absurd hseg (by simp)
  | .obj fs, h, pr, hpr, seg, hseg => by
      cases fs with
      | fnil => exact Bool.noConfusion h
      | fcons k v rest =>
          rw [goodVal_obj_fcons] at h
          rw [pathsV] at hpr
          exact pathsF_segs_noDot _ h pr hpr seg hseg
  | .num, h, _, _, _, _ => Bool.noConfusion h
  | .boolean b, h, _, _, _, _ => Bool.noConfusion h
  | .arr, h, _, _, _, _ => Bool.noConfusion h
  | .null, h, _, _, _, _ => Bool.noConfusion h
theorem pathsF_segs_noDot : ∀ (fs : JFields), goodFields fs = true →
    ∀ pr ∈ pathsF fs, ∀ seg ∈ pr.1, noDot seg = true
  | .fnil, _, pr, hpr, _, _ => by rw [pathsF] at hpr; exact absurd hpr (by simp)
  | .fcons k v rest, h, pr, hpr, seg, hseg => by
      obtain ⟨hk, hv, hkb, hrest⟩ := goodFields_fcons_parts k v rest h
      rw [pathsF] at hpr
      rcases List.mem_append.mp hpr with hl | hr
      · obtain ⟨q, hq, hqe⟩ := List.mem_map.mp hl
        rw [← hqe] at hseg
        rcases List.mem_cons.mp hseg with rfl | hseg2
        · exact hk
        · exact pathsV_segs_noDot v hv q hq seg hseg2
      · exact pathsF_segs_noDot rest hrest pr hr seg hseg
end

/-- With the root condition, an empty head segment only occurs on the
singleton path of a string bound to the empty root key. -/
theorem pathsF_root_heads : ∀ (fs : JFields), rootEmptyOk fs = true →
    ∀ pr ∈ pathsF fs, ∃ k p, pr.1 = k :: p ∧ (k ≠ [] ∨ p = [])
  | .fnil, _, pr, hpr => by rw [pathsF] at hpr; exact absurd hpr (by simp)
  | .fcons k v rest, h, pr, hpr => by
      obtain ⟨hhead, hrest⟩ := rootEmptyOk_fcons_parts k v rest h
      rw [pathsF] at hpr
      rcases List.mem_append.mp hpr with hl | hr
      · obtain ⟨q, hq, hqe⟩ := List.mem_map.mp hl
        by_cases hk : k = []
        · obtain ⟨s, rfl⟩ := hhead hk
          rw [pathsV] at hq
          rcases List.mem_singleton.mp hq with rfl
          exact ⟨k, [], by rw [← hqe], Or.inr rfl⟩
        · exact ⟨k, q.1, by rw [← hqe], Or.inl hk⟩
      · exact pathsF_root_heads rest hrest pr hr

mutual
theorem pathsV_paths_nodup : ∀ (v : JValue), goodVal v = true →
    ((pathsV v).map Prod.fst).Nodup
  | .str s, _ => by rw [pathsV]; simp
  | .obj fs, h => by
      cases fs with
      | fnil => exact Bool.noConfusion h
      | fcons k v rest =>
          rw [goodVal_obj_fcons] at h
          rw [pathsV]
          exact pathsF_paths_nodup _ h
  | .num, h => Bool.noConfusion h
  | .boolean b, h => Bool.noConfusion h
  | .arr, h => Bool.noConfusion h
  | .null, h => Bool.noConfusion h
theorem pathsF_paths_nodup : ∀ (fs : JFields), goodFields fs = true →
    ((pathsF fs).map Prod.fst).Nodup
  | .fnil, _ => by rw [pathsF]; simp
  | .fcons k v rest, h => by
      obtain ⟨hk, hv, hkb, hrest⟩ := goodFields_fcons_parts k v rest h
      rw [pathsF, List.map_append, List.nodup_append]
      refine ⟨?_, pathsF_paths_nodup rest hrest, ?_⟩
      · rw [List.map_map]
        have hcomp : (Prod.fst ∘ fun e : List Str × Str => (k :: e.1, e.2))
            = (fun p : List Str => k :: p) ∘ Prod.fst := rfl
        rw [hcomp, ← List.map_map]
        exact List.Nodup.map (fun a b hab => by injection hab)
          (pathsV_paths_nodup v hv)
      · intro a ha hb
        obtain ⟨q, hq, hqe⟩ := List.mem_map.mp ha
        obtain ⟨e, he, hee⟩ := List.mem_map.mp hq
        obtain ⟨pr, hpr, hpre⟩ := List.mem_map.mp hb
        obtain ⟨k', p', hsh, hkmem⟩ := pathsF_heads rest pr hpr
        have ha1 : a = k :: e.1 := by rw [← hqe, ← hee]
        have ha2 : a = k' :: p' := by rw [← hpre, hsh]
        have hkk : k = k' := by rw [ha1] at ha2; injection ha2
        have hlt : strLt k k' = true := keyBelow_mem rest k hkb k' hkmem
        exact strLt_ne hlt hkk
end

/-! ### Unfolding insert_into_nested -/

theorem insert_into_nested_single (m : JFields) (p v : Str) :
    insert_into_nested m [p] v = mapInsert m p (.str v) := by
  rw [insert_into_nested]

theorem insert_into_nested_obj (m : JFields) (h a : Str) (t : List Str)
    (v : Str) (nested : JFields) (hl : mapLookup m h = some (.obj nested)) :
    insert_into_nested m (h :: a :: t) v
      = mapInsert m h (.obj (insert_into_nested nested (a :: t) v)) := by
  rw [insert_into_nested, hl]
  simp

theorem insert_into_nested_none (m : JFields) (h a : Str) (t : List Str)
    (v : Str) (hl : mapLookup m h = none) :
    insert_into_nested m (h :: a :: t) v
      = mapInsert m h (.obj (insert_into_nested .fnil (a :: t) v)) := by
  rw [insert_into_nested, hl]
  simp

theorem insert_into_nested_nonobj (m : JFields) (h a : Str) (t : List Str)
    (v : Str) (w : JValue) (hl : mapLookup m h = some w)
    (hw : w.isObj = false) :
    insert_into_nested m (h :: a :: t) v = m := by
  cases w with
  | obj g => simp [JValue.isObj] at hw
  | str s => rw [insert_into_nested, hl]; simp
  | num => rw [insert_into_nested, hl]; simp
  | boolean b => rw [insert_into_nested, hl]; simp
  | arr => rw [insert_into_nested, hl]; simp
  | null => rw [insert_into_nested, hl]; simp

/-! ### Flatten against the path entries -/

mutual
theorem flatten_recursive_paths : ∀ (v : JValue) (pre : Str) (acc : FlatMap),
    ((pathsV v).map (fun pr => joinSegs pre pr.1)).Nodup →
    (∀ key ∈ (pathsV v).map (fun pr => joinSegs pre pr.1),
      lookupKV acc key = none) →
    flatten_recursive v pre acc
      = acc ++ (pathsV v).map (fun pr => (joinSegs pre pr.1, pr.2))
  | .str s, pre, acc, _, hfresh => by
      rw [pathsV] at hfresh ⊢
      rw [show flatten_recursive (.str s) pre acc = insertKV acc pre s from rfl]
      rw [insertKV_of_lookup_none acc pre s
        (hfresh pre (by simp [joinSegs_nil]))]
      simp [joinSegs_nil]
  | .obj fs, pre, acc, hnodup, hfresh => by
      rw [pathsV] at hnodup hfresh ⊢
      rw [show flatten_recursive (.obj fs) pre acc = flatten_fields fs pre acc
        from rfl]
      exact flatten_fields_paths fs pre acc hnodup hfresh
  | .num, pre, acc, _, _ => by
      rw [show pathsV JValue.num = [] from rfl]
      rw [show flatten_recursive JValue.num pre acc = acc from rfl]
      simp
  | .boolean b, pre, acc, _, _ => by
      rw [show pathsV (JValue.boolean b) = [] from rfl]
      rw [show flatten_recursive (JValue.boolean b) pre acc = acc from rfl]
      simp
  | .arr, pre, acc, _, _ => by
      rw [show pathsV JValue.arr = [] from rfl]
      rw [show flatten_recursive JValue.arr pre acc = acc from rfl]
      simp
  | .null, pre, acc, _, _ => by
      rw [show pathsV JValue.null = [] from rfl]
      rw [show flatten_recursive JValue.null pre acc = acc from rfl]
      simp
theorem flatten_fields_paths : ∀ (fs : JFields) (pre : Str) (acc : FlatMap),
    ((pathsF fs).map (fun pr => joinSegs pre pr.1)).Nodup →
    (∀ key ∈ (pathsF fs).map (fun pr => joinSegs pre pr.1),
      lookupKV acc key = none) →
    flatten_fields fs pre acc
      = acc ++ (pathsF fs).map (fun pr => (joinSegs pre pr.1, pr.2))
  | .fnil, pre, acc, _, _ => by
      rw [pathsF, flatten_fields]
      simp
  | .fcons k v rest, pre, acc, hnodup, hfresh => by
      have hkeys : (pathsF (.fcons k v rest)).map (fun pr => joinSegs pre pr.1)
          = (pathsV v).map (fun pr => joinSegs (newKey pre k) pr.1)
            ++ (pathsF rest).map (fun pr => joinSegs pre pr.1) := by
        rw [pathsF, List.map_append, List.map_map]
        rfl
      have hents : (pathsF (.fcons k v rest)).map
            (fun pr => (joinSegs pre pr.1, pr.2))
          = (pathsV v).map (fun pr => (joinSegs (newKey pre k) pr.1, pr.2))
            ++ (pathsF rest).map (fun pr => (joinSegs pre pr.1, pr.2)) := by
        rw [pathsF, List.map_append, List.map_map]
        rfl
      rw [hkeys] at hnodup hfresh
      rw [List.nodup_append] at hnodup
      rw [flatten_fields]
      rw [flatten_recursive_paths v (newKey pre k) acc hnodup.1
        (fun key hk => hfresh key (List.mem_append.mpr (Or.inl hk)))]
      rw [flatten_fields_paths rest pre _ hnodup.2.1 (by
        intro key hk
        rw [lookupKV_append]
        rw [hfresh key (List.mem_append.mpr (Or.inr hk))]
        have hnot : key ∉ ((pathsV v).map
            (fun pr => ((joinSegs (newKey pre k) pr.1 : Str), pr.2))).map Prod.fst := by
          rw [List.map_map]
          have hco : (Prod.fst ∘ fun pr : List Str × Str =>
              ((joinSegs (newKey pre k) pr.1 : Str), pr.2))
              = fun pr : List Str × Str => joinSegs (newKey pre k) pr.1 := rfl
          rw [hco]
          exact fun hmem => hnodup.2.2 hmem hk
        rw [(lookupKV_eq_none_iff _ _).mpr hnot])]
      rw [hents, List.append_assoc]
end

/-- The dot-joined keys of the path entries of a good tree are duplicate
free at the root. -/
theorem root_keys_nodup (fields : JFields) (hgood : goodFields fields = true)
    (hroot : rootEmptyOk fields = true) :
    ((pathsF fields).map (fun pr => joinSegs [] pr.1)).Nodup := by
  have hco : (fun pr : List Str × Str => (joinSegs [] pr.1 : Str))
      = (fun p : List Str => joinSegs [] p) ∘ Prod.fst := rfl
  rw [hco, ← List.map_map]
  refine List.Nodup.map_on ?_ (pathsF_paths_nodup fields hgood)
  intro p hp q hq he
  obtain ⟨pre1, hpre1, hpe1⟩ := List.mem_map.mp hp
  obtain ⟨pre2, hpre2, hpe2⟩ := List.mem_map.mp hq
  obtain ⟨k1, p1, hs1, hr1⟩ := pathsF_root_heads fields hroot pre1 hpre1
  obtain ⟨k2, p2, hs2, hr2⟩ := pathsF_root_heads fields hroot pre2 hpre2
  have hsegs1 := pathsF_segs_noDot fields hgood pre1 hpre1
  have hsegs2 := pathsF_segs_noDot fields hgood pre2 hpre2
  have hsp1 : splitDot (joinSegs [] p) = p := by
    rw [← hpe1, hs1]
    exact splitDot_joinSegs_root k1 p1
      (hsegs1 k1 (by rw [hs1]; simp))
      (fun seg hseg => hsegs1 seg (by rw [hs1]; exact List.mem_cons_of_mem _ hseg))
      hr1
  have hsp2 : splitDot (joinSegs [] q) = q := by
    rw [← hpe2, hs2]
    exact splitDot_joinSegs_root k2 p2
      (hsegs2 k2 (by rw [hs2]; simp))
      (fun seg hseg => hsegs2 seg (by rw [hs2]; exact List.mem_cons_of_mem _ hseg))
      hr2
  rw [← hsp1, ← hsp2, he]

/-! ### Rebuilding the tree from the path entries -/

/-- Once the group head key is present at the end of the map, every further
path of the group threads into its object value. -/
theorem fold_group_tail : ∀ (prs : List (List Str × Str)) (m : JFields)
    (k : Str) (acc : JFields),
    (∀ pr ∈ prs, pr.1 ≠ []) → (∀ x ∈ fieldKeys m, strLt x k = true) →
    List.foldl (fun mm pr => insert_into_nested mm pr.1 pr.2)
        (fieldsApp m (.fcons k (.obj acc) .fnil))
        (prs.map (fun pr => ((k :: pr.1 : List Str), pr.2)))
      = fieldsApp m (.fcons k (.obj
          (List.foldl (fun mm pr => insert_into_nested mm pr.1 pr.2) acc prs))
          .fnil)
  | [], m, k, acc, _, _ => by simp
  | pr :: prs, m, k, acc, hne, hbelow => by
      cases hp : pr.1 with
      | nil => exact absurd hp (hne pr (by simp))
      | cons a t =>
          have hxne : ∀ x ∈ fieldKeys m, x ≠ k :=
            fun x hx => strLt_ne (hbelow x hx)
          have hlook : mapLookup (fieldsApp m (.fcons k (.obj acc) .fnil)) k
              = some (.obj acc) := mapLookup_app_single m k (.obj acc) hxne
          have e1 : List.foldl (fun mm pr => insert_into_nested mm pr.1 pr.2)
              (fieldsApp m (.fcons k (.obj acc) .fnil))
              ((pr :: prs).map (fun pr => ((k :: pr.1 : List Str), pr.2)))
              = List.foldl (fun mm pr => insert_into_nested mm pr.1 pr.2)
                  (insert_into_nested (fieldsApp m (.fcons k (.obj acc) .fnil))
                    (k :: pr.1) pr.2)
                  (prs.map (fun pr => ((k :: pr.1 : List Str), pr.2))) := by
            rw [List.map_cons, List.foldl_cons]
          have e2 : insert_into_nested (fieldsApp m (.fcons k (.obj acc) .fnil))
              (k :: pr.1) pr.2
              = fieldsApp m (.fcons k
                  (.obj (insert_into_nested acc pr.1 pr.2)) .fnil) := by
            rw [hp]
            rw [insert_into_nested_obj _ _ _ _ _ _ hlook]
            rw [mapInsert_app_single m k _ _ hbelow]
          have e3 := fold_group_tail prs m k (insert_into_nested acc pr.1 pr.2)
            (fun q hq => hne q (by simp [hq])) hbelow
          have e4 : List.foldl (fun mm pr => insert_into_nested mm pr.1 pr.2)
              acc (pr :: prs)
              = List.foldl (fun mm pr => insert_into_nested mm pr.1 pr.2)
                  (insert_into_nested acc pr.1 pr.2) prs := by
            rw [List.foldl_cons]
          rw [e1, e2, e3, e4]

mutual
/-- Folding the path group of one field into a map whose keys all lie below
the field key appends exactly that field. -/
theorem unflatten_group : ∀ (v : JValue) (k : Str) (m : JFields),
    goodVal v = true → (∀ x ∈ fieldKeys m, strLt x k = true) →
    List.foldl (fun mm pr => insert_into_nested mm pr.1 pr.2) m
        ((pathsV v).map (fun pr => ((k :: pr.1 : List Str), pr.2)))
      = fieldsApp m (.fcons k v .fnil)
  | .str s, k, m, _, hbelow => by
      rw [pathsV, List.map_cons, List.map_nil, List.foldl_cons, List.foldl_nil]
      rw [show insert_into_nested m ((k :: ([] : List Str) : List Str))
          (([], s) : List Str × Str).2 = mapInsert m k (.str s)
        from insert_into_nested_single m k s]
      rw [mapInsert_append m k _ hbelow]
  | .obj fs, k, m, hv, hbelow => by
      have hfs : goodFields fs = true := by
        cases fs with
        | fnil => exact Bool.noConfusion hv
        | fcons k2 v2 rest2 => rw [goodVal_obj_fcons] at hv; exact hv
      have hnn : pathsV (.obj fs) ≠ [] := pathsV_ne_nil (.obj fs) hv
      rw [pathsV] at hnn ⊢
      cases hopaths : pathsF fs with
      | nil => exact absurd hopaths hnn
      | cons pr0 prs =>
          have hpr0 : pr0 ∈ pathsF fs := by rw [hopaths]; simp
          obtain ⟨a0, t0, hsh0, _⟩ := pathsF_heads fs pr0 hpr0
          have hprs_ne : ∀ pr ∈ prs, pr.1 ≠ [] := by
            intro pr hpr
            obtain ⟨a1, t1, hsh1, _⟩ := pathsF_heads fs pr
              (by rw [hopaths]; exact List.mem_cons_of_mem _ hpr)
            rw [hsh1]
            simp
          have hxne : ∀ x ∈ fieldKeys m, x ≠ k :=
            fun x hx => strLt_ne (hbelow x hx)
          have hlook : mapLookup m k = none := mapLookup_eq_none m k hxne
          have e1 : List.foldl (fun mm pr => insert_into_nested mm pr.1 pr.2) m
              ((pr0 :: prs).map (fun pr => ((k :: pr.1 : List Str), pr.2)))
              = List.foldl (fun mm pr => insert_into_nested mm pr.1 pr.2)
                  (insert_into_nested m (k :: pr0.1) pr0.2)
                  (prs.map (fun pr => ((k :: pr.1 : List Str), pr.2))) := by
            rw [List.map_cons, List.foldl_cons]
          have e2 : insert_into_nested m (k :: pr0.1) pr0.2
              = fieldsApp m (.fcons k
                  (.obj (insert_into_nested .fnil pr0.1 pr0.2)) .fnil) := by
            rw [hsh0]
            rw [insert_into_nested_none _ _ _ _ _ hlook]
            rw [mapInsert_append m k _ hbelow]
          have e3 := fold_group_tail prs m k
            (insert_into_nested .fnil pr0.1 pr0.2) hprs_ne hbelow
          have e4 : List.foldl (fun mm pr => insert_into_nested mm pr.1 pr.2)
              (insert_into_nested .fnil pr0.1 pr0.2) prs
              = List.foldl (fun mm pr => insert_into_nested mm pr.1 pr.2)
                  .fnil (pathsF fs) := by
            rw [hopaths, List.foldl_cons]
          have e5 := unflatten_fields_fold fs .fnil hfs
            (by intro x hx; rw [fieldKeys] at hx; exact absurd hx (by simp))
          rw [e1, e2, e3, e4, e5]
          rw [show fieldsApp JFields.fnil fs = fs from rfl]
  | .num, _, _, hv, _ => Bool.noConfusion hv
  | .boolean b, _, _, hv, _ => Bool.noConfusion hv
  | .arr, _, _, hv, _ => Bool.noConfusion hv
  | .null, _, _, hv, _ => Bool.noConfusion hv
/-- Folding all path entries of a good field list into a map whose keys all
lie below the field keys appends the field list. -/
theorem unflatten_fields_fold : ∀ (fs : JFields) (m : JFields),
    goodFields fs = true →
    (∀ x ∈ fieldKeys m, ∀ y ∈ fieldKeys fs, strLt x y = true) →
    List.foldl (fun mm pr => insert_into_nested mm pr.1 pr.2) m (pathsF fs)
      = fieldsApp m fs
  | .fnil, m, _, _ => by
      rw [pathsF, List.foldl_nil, fieldsApp_fnil]
  | .fcons k v rest, m, h, hbelow => by
      obtain ⟨hk, hv, hkb, hrest⟩ := goodFields_fcons_parts k v rest h
      rw [pathsF, List.foldl_append]
      rw [unflatten_group v k m hv
        (fun x hx => hbelow x hx k (by rw [fieldKeys]; simp))]
      rw [unflatten_fields_fold rest (fieldsApp m (.fcons k v .fnil)) hrest (by
        intro x hx y hy
        rw [fieldKeys_app] at hx
        rcases List.mem_append.mp hx with hx1 | hx2
        · exact hbelow x hx1 y (by rw [fieldKeys]; exact List.mem_cons_of_mem _ hy)
        · rw [fieldKeys] at hx2
          rcases List.mem_cons.mp hx2 with rfl | hx3
          · exact keyBelow_mem rest x hkb y hy
          · exact absurd hx3 (by simp [fieldKeys]))]
      rw [fieldsApp_assoc]
      rw [show fieldsApp (JFields.fcons k v .fnil) rest = .fcons k v rest from rfl]
end

/-- C1 counterexample: the object binding the dotted key "a.b" to the string
value "x" is a tree all of whose nodes are objects and whose leaves are
string values, yet unflattening its flattening rebuilds the dot-split
structure instead of the original key. -/
theorem c1_counterexample :
    unflatten_object (flatten_object
        (.obj (.fcons (strOf "a.b") (.str (strOf "x")) .fnil)) [])
      ≠ .obj (.fcons (strOf "a.b") (.str (strOf "x")) .fnil)
    ∧ unflatten_object (flatten_object
        (.obj (.fcons (strOf "a.b") (.str (strOf "x")) .fnil)) [])
      = .obj (.fcons (strOf "a")
          (.obj (.fcons (strOf "b") (.str (strOf "x")) .fnil)) .fnil) :=
  ⟨by decide, by decide⟩

/-- C1 (amended): for every translation tree whose nodes are objects (in the
canonical strictly key-sorted serde_json map representation, with every
nested object nonempty) and whose leaves are string values, provided no key
contains a dot character and an empty root key is not bound to an object,
unflatten_object inverts flatten_object with the empty starting path,
rebuilding the tree exactly. -/
theorem c1_roundtrip (fields : JFields) (h : goodRootFields fields = true) :
    unflatten_object (flatten_object (.obj fields) []) = .obj fields := by
  rw [goodRootFields, Bool.and_eq_true] at h
  obtain ⟨hgood, hroot⟩ := h
  have hflat : flatten_object (.obj fields) []
      = (pathsF fields).map (fun pr => ((joinSegs [] pr.1 : Str), pr.2)) := by
    rw [flatten_object]
    rw [show flatten_recursive (.obj fields) [] []
        = flatten_fields fields [] [] from rfl]
    rw [flatten_fields_paths fields [] [] (root_keys_nodup fields hgood hroot)
      (by intro key _; rfl)]
    rw [List.nil_append]
  rw [hflat, unflatten_object]
  have h1 : unflatten_fields
      ((pathsF fields).map (fun pr => ((joinSegs [] pr.1 : Str), pr.2)))
      = List.foldl (fun mm pr =>
          insert_into_nested mm (splitDot (joinSegs [] pr.1)) pr.2)
          .fnil (pathsF fields) := by
    rw [unflatten_fields, List.foldl_map]
  have h2 : List.foldl (fun mm pr =>
        insert_into_nested mm (splitDot (joinSegs [] pr.1)) pr.2)
        .fnil (pathsF fields)
      = List.foldl (fun mm pr => insert_into_nested mm pr.1 pr.2)
          .fnil (pathsF fields) := by
    apply foldl_congr_mem
    intro pr hpr acc
    obtain ⟨k1, p1, hs1, hr1⟩ := pathsF_root_heads fields hroot pr hpr
    have hsegs := pathsF_segs_noDot fields hgood pr hpr
    have hsp : splitDot (joinSegs [] pr.1) = pr.1 := by
      rw [hs1]
      exact splitDot_joinSegs_root k1 p1 (hsegs k1 (by rw [hs1]; simp))
        (fun seg hseg => hsegs seg
          (by rw [hs1]; exact List.mem_cons_of_mem _ hseg)) hr1
    rw [hsp]
  have h3 := unflatten_fields_fold fields .fnil hgood
    (by intro x hx; rw [fieldKeys] at hx; exact absurd hx (by simp))
  rw [h1, h2, h3]
  rw [show fieldsApp JFields.fnil fields = fields from rfl]

theorem c1_roundtrip_witness :
    goodRootFields (.fcons (strOf "greeting") (.str (strOf "Hello"))
        (.fcons (strOf "user")
          (.obj (.fcons (strOf "name") (.str (strOf "John")) .fnil))
          .fnil)) = true
    ∧ unflatten_object (flatten_object
        (.obj (.fcons (strOf "greeting") (.str (strOf "Hello"))
          (.fcons (strOf "user")
            (.obj (.fcons (strOf "name") (.str (strOf "John")) .fnil))
            .fnil))) [])
      = .obj (.fcons (strOf "greeting") (.str (strOf "Hello"))
          (.fcons (strOf "user")
            (.obj (.fcons (strOf "name") (.str (strOf "John")) .fnil))
            .fnil)) :=
  ⟨by decide, c1_roundtrip _ (by decide)⟩

/-! ### Lemmas toward the merge law: unfolding the tree lookups -/

theorem lookupPath_nil (m : JFields) : lookupPath m [] = none := by
  rw [lookupPath]

theorem lookupPath_single_eq (m : JFields) (x : Str) :
    lookupPath m [x]
      = (match mapLookup m x with
         | some (.str s) => some s
         | _ => none) := by
  rw [lookupPath]

theorem lookupPath_cons2_obj (m : JFields) (h a : Str) (t : List Str)
    (m' : JFields) (hl : mapLookup m h = some (.obj m')) :
    lookupPath m (h :: a :: t) = lookupPath m' (a :: t) := by
  rw [lookupPath, hl]
  simp

theorem lookupPath_cons2_none (m : JFields) (h a : Str) (t : List Str)
    (hl : mapLookup m h = none) :
    lookupPath m (h :: a :: t) = none := by
  rw [lookupPath, hl]
  simp

theorem lookupPath_cons2_nonobj (m : JFields) (h a : Str) (t : List Str)
    (w : JValue) (hl : mapLookup m h = some w) (hw : w.isObj = false) :
    lookupPath m (h :: a :: t) = none := by
  cases w with
  | obj g => simp [JValue.isObj] at hw
  | str s => rw [lookupPath, hl]; simp
  | num => rw [lookupPath, hl]; simp
  | boolean b => rw [lookupPath, hl]; simp
  | arr => rw [lookupPath, hl]; simp
  | null => rw [lookupPath, hl]; simp

theorem lookupPath_fnil (p : List Str) : lookupPath .fnil p = none := by
  cases p with
  | nil => rw [lookupPath]
  | cons h t =>
      cases t with
      | nil => rw [lookupPath_single_eq, mapLookup]
      | cons a t2 => exact lookupPath_cons2_none _ _ _ _ (by rw [mapLookup])

theorem freePath_single (m : JFields) (x : Str) :
    freePath m [x] = true := by
  rw [freePath]

theorem freePath_nil (m : JFields) : freePath m [] = true := by
  rw [freePath]

theorem freePath_cons2_obj (m : JFields) (h a : Str) (t : List Str)
    (m' : JFields) (hl : mapLookup m h = some (.obj m')) :
    freePath m (h :: a :: t) = freePath m' (a :: t) := by
  rw [freePath, hl]
  simp

theorem freePath_cons2_none (m : JFields) (h a : Str) (t : List Str)
    (hl : mapLookup m h = none) :
    freePath m (h :: a :: t) = true := by
  rw [freePath, hl]
  simp

theorem freePath_cons2_nonobj (m : JFields) (h a : Str) (t : List Str)
    (w : JValue) (hl : mapLookup m h = some w) (hw : w.isObj = false) :
    freePath m (h :: a :: t) = false := by
  cases w with
  | obj g => simp [JValue.isObj] at hw
  | str s => rw [freePath, hl]; simp
  | num => rw [freePath, hl]; simp
  | boolean b => rw [freePath, hl]; simp
  | arr => rw [freePath, hl]; simp
  | null => rw [freePath, hl]; simp

theorem freePath_fnil (p : List Str) : freePath .fnil p = true := by
  cases p with
  | nil => exact freePath_nil _
  | cons h t =>
      cases t with
      | nil => exact freePath_single _ _
      | cons a t2 => exact freePath_cons2_none _ _ _ _ (by rw [mapLookup])

theorem lookupPathKey_nil_of_ne {β : Type} :
    ∀ (L : List (List Str × β)) (q : List Str),
    (∀ pr ∈ L, pr.1 ≠ q) → lookupPathKey L q = none
  | [], _, _ => rfl
  | (p', v) :: rest, q, h => by
      rw [lookupPathKey, if_neg (fun he => h (p', v) (by simp) he.symm)]
      exact lookupPathKey_nil_of_ne rest q
        (fun pr hpr => h pr (List.mem_cons_of_mem _ hpr))

theorem lookupPathKey_append {β : Type} :
    ∀ (A B : List (List Str × β)) (q : List Str),
    lookupPathKey (A ++ B) q =
      (match lookupPathKey A q with
       | some v => some v
       | none => lookupPathKey B q)
  | [], B, q => by rw [List.nil_append, lookupPathKey]
  | (p', v) :: rest, B, q => by
      rw [List.cons_append, lookupPathKey, lookupPathKey]
      by_cases hq : q = p'
      · rw [if_pos hq, if_pos hq]
      · rw [if_neg hq, if_neg hq, lookupPathKey_append rest B q]

theorem lookupPathKey_mem_of_some {β : Type} :
    ∀ (L : List (List Str × β)) (q : List Str) (v : β),
    lookupPathKey L q = some v → q ∈ L.map Prod.fst
  | [], q, v, h => by rw [lookupPathKey] at h; exact Option.noConfusion h
  | (p', w) :: rest, q, v, h => by
      rw [lookupPathKey] at h
      by_cases hq : q = p'
      · rw [List.map_cons, hq]
        exact List.mem_cons_self _ _
      · rw [if_neg hq] at h
        rw [List.map_cons]
        exact List.mem_cons_of_mem _ (lookupPathKey_mem_of_some rest q v h)

theorem strLt_trans : ∀ (a b c : Str),
    strLt a b = true → strLt b c = true → strLt a c = true
  | [], b, c, _, h2 => by
      cases c with
      | nil =>
          cases b with
          | nil => exact h2
          | cons d ds => exact absurd h2 (by rw [strLt]; simp)
      | cons e es => rfl
  | a :: as, b, c, h1, h2 => by
      cases b with
      | nil => exact absurd h1 (by rw [strLt]; simp)
      | cons d ds =>
          cases c with
          | nil => exact absurd h2 (by rw [strLt]; simp)
          | cons e es =>
              rw [strLt] at h1 h2 ⊢
              rcases lt_trichotomy a d with had | had | had
              · rcases lt_trichotomy d e with hde | hde | hde
                · rw [if_pos (lt_trans had hde)]
                · subst hde
                  rw [if_pos had]
                · rw [if_neg (lt_asymm hde), if_pos hde] at h2
                  exact Bool.noConfusion h2
              · subst had
                rw [if_neg (lt_irrefl a), if_neg (lt_irrefl a)] at h1
                rcases lt_trichotomy a e with hae | hae | hae
                · rw [if_pos hae]
                · subst hae
                  rw [if_neg (lt_irrefl a), if_neg (lt_irrefl a)] at h2
                  rw [if_neg (lt_irrefl a), if_neg (lt_irrefl a)]
                  exact strLt_trans as ds es h1 h2
                · rw [if_neg (lt_asymm hae), if_pos hae] at h2
                  exact Bool.noConfusion h2
              · rw [if_neg (lt_asymm had), if_pos had] at h1
                exact Bool.noConfusion h1

/-! ### Well-formedness is preserved by nested insertion -/

theorem mapLookup_goodVal : ∀ (m : JFields) (k : Str) (w : JValue),
    goodFields m = true → mapLookup m k = some w → goodVal w = true
  | .fnil, _, _, _, hl => by rw [mapLookup] at hl; exact Option.noConfusion hl
  | .fcons k' v' rest, k, w, hg, hl => by
      obtain ⟨_, hv, _, hrest⟩ := goodFields_fcons_parts k' v' rest hg
      rw [mapLookup] at hl
      by_cases hk : k = k'
      · rw [if_pos hk] at hl
        injection hl with he
        rw [← he]
        exact hv
      · rw [if_neg hk] at hl
        exact mapLookup_goodVal rest k w hrest hl

theorem keyBelow_of_lt_below : ∀ (m : JFields) (k k' : Str),
    strLt k k' = true → keyBelow k' m = true → keyBelow k m = true
  | .fnil, _, _, _, _ => rfl
  | .fcons k2 v2 rest, k, k', hlt, hb => by
      rw [keyBelow, Bool.and_eq_true] at hb ⊢
      exact ⟨strLt_trans k k' k2 hlt hb.1,
        keyBelow_of_lt_below rest k k' hlt hb.2⟩

theorem keyBelow_mapInsert : ∀ (m : JFields) (k' k : Str) (v : JValue),
    keyBelow k' m = true → strLt k' k = true →
    keyBelow k' (mapInsert m k v) = true
  | .fnil, k', k, v, _, hlt => by
      rw [mapInsert, keyBelow, keyBelow, Bool.and_eq_true]
      exact ⟨hlt, rfl⟩
  | .fcons k2 v2 rest, k', k, v, hb, hlt => by
      rw [keyBelow, Bool.and_eq_true] at hb
      by_cases h1 : strLt k k2 = true
      · rw [mapInsert, if_pos h1, keyBelow, keyBelow, Bool.and_eq_true,
          Bool.and_eq_true]
        exact ⟨hlt, hb.1, hb.2⟩
      · by_cases h2 : k = k2
        · rw [mapInsert, if_neg (by simp [h1]), if_pos h2, keyBelow,
            Bool.and_eq_true]
          exact ⟨hlt, hb.2⟩
        · rw [mapInsert, if_neg (by simp [h1]), if_neg h2, keyBelow,
            Bool.and_eq_true]
          exact ⟨hb.1, keyBelow_mapInsert rest k' k v hb.2 hlt⟩

theorem mapInsert_goodFields : ∀ (m : JFields) (k : Str) (v : JValue),
    goodFields m = true → noDot k = true → goodVal v = true →
    goodFields (mapInsert m k v) = true
  | .fnil, k, v, _, hk, hv => by
      rw [mapInsert, goodFields_fcons, Bool.and_eq_true, Bool.and_eq_true,
        Bool.and_eq_true]
      exact ⟨⟨⟨hk, hv⟩, rfl⟩, rfl⟩
  | .fcons k2 v2 rest, k, v, hg, hk, hv => by
      obtain ⟨hk2, hv2, hkb2, hrest⟩ := goodFields_fcons_parts k2 v2 rest hg
      by_cases h1 : strLt k k2 = true
      · rw [mapInsert, if_pos h1, goodFields_fcons, Bool.and_eq_true,
          Bool.and_eq_true, Bool.and_eq_true]
        refine ⟨⟨⟨hk, hv⟩, ?_⟩, hg⟩
        rw [keyBelow, Bool.and_eq_true]
        exact ⟨h1, keyBelow_of_lt_below rest k k2 h1 hkb2⟩
      · by_cases h2 : k = k2
        · subst h2
          rw [mapInsert, if_neg (by simp [h1]), if_pos rfl, goodFields_fcons,
            Bool.and_eq_true, Bool.and_eq_true, Bool.and_eq_true]
          exact ⟨⟨⟨hk, hv⟩, hkb2⟩, hrest⟩
        · have h3 : strLt k2 k = true := by
            rcases strLt_total k k2 with h4 | h4 | h4
            · exact absurd h4 h1
            · exact absurd h4 h2
            · exact h4
          rw [mapInsert, if_neg (by simp [h1]), if_neg h2, goodFields_fcons,
            Bool.and_eq_true, Bool.and_eq_true, Bool.and_eq_true]
          exact ⟨⟨⟨hk2, hv2⟩, keyBelow_mapInsert rest k2 k v hkb2 h3⟩,
            mapInsert_goodFields rest k v hrest hk hv⟩

theorem mapInsert_ne_fnil : ∀ (m : JFields) (k : Str) (v : JValue),
    mapInsert m k v ≠ .fnil
  | .fnil, k, v => by rw [mapInsert]; exact fun h => JFields.noConfusion h
  | .fcons k2 v2 rest, k, v => by
      by_cases h1 : strLt k k2 = true
      · rw [mapInsert, if_pos h1]; exact fun h => JFields.noConfusion h
      · by_cases h2 : k = k2
        · rw [mapInsert, if_neg (by simp [h1]), if_pos h2]
          exact fun h => JFields.noConfusion h
        · rw [mapInsert, if_neg (by simp [h1]), if_neg h2]
          exact fun h => JFields.noConfusion h

theorem insert_into_nested_ne_fnil (m : JFields) (p : List Str) (v : Str)
    (hp : p ≠ []) : insert_into_nested m p v ≠ .fnil := by
  cases p with
  | nil => exact absurd rfl hp
  | cons x t =>
      cases t with
      | nil =>
          rw [insert_into_nested_single]
          exact mapInsert_ne_fnil m x (.str v)
      | cons y t2 =>
          cases hl : mapLookup m x with
          | none =>
              rw [insert_into_nested_none _ _ _ _ _ hl]
              exact mapInsert_ne_fnil _ _ _
          | some w =>
              cases w with
              | obj nested =>
                  rw [insert_into_nested_obj _ _ _ _ _ _ hl]
                  exact mapInsert_ne_fnil _ _ _
              | str s =>
                  rw [insert_into_nested_nonobj _ _ _ _ _ _ hl (by rfl)]
                  intro hcon
                  rw [hcon, mapLookup] at hl
                  exact Option.noConfusion hl
              | num =>
                  rw [insert_into_nested_nonobj _ _ _ _ _ _ hl (by rfl)]
                  intro hcon
                  rw [hcon, mapLookup] at hl
                  exact Option.noConfusion hl
              | boolean b =>
                  rw [insert_into_nested_nonobj _ _ _ _ _ _ hl (by rfl)]
                  intro hcon
                  rw [hcon, mapLookup] at hl
                  exact Option.noConfusion hl
              | arr =>
                  rw [insert_into_nested_nonobj _ _ _ _ _ _ hl (by rfl)]
                  intro hcon
                  rw [hcon, mapLookup] at hl
                  exact Option.noConfusion hl
              | null =>
                  rw [insert_into_nested_nonobj _ _ _ _ _ _ hl (by rfl)]
                  intro hcon
                  rw [hcon, mapLookup] at hl
                  exact Option.noConfusion hl

theorem goodVal_obj_of (m : JFields) (hne : m ≠ .fnil)
    (hg : goodFields m = true) : goodVal (.obj m) = true := by
  cases m with
  | fnil => exact absurd rfl hne
  | fcons k v rest => rw [goodVal_obj_fcons]; exact hg

theorem goodFields_obj_of_goodVal (m : JFields)
    (hv : goodVal (.obj m) = true) : goodFields m = true := by
  cases m with
  | fnil => exact Bool.noConfusion hv
  | fcons k v rest => rw [goodVal_obj_fcons] at hv; exact hv

theorem goodFields_insert : ∀ (p : List Str) (m : JFields) (v : Str),
    goodFields m = true → p ≠ [] → (∀ seg ∈ p, noDot seg = true) →
    goodFields (insert_into_nested m p v) = true
  | [], _, _, _, hp, _ => absurd rfl hp
  | [x], m, v, hg, _, hsegs => by
      rw [insert_into_nested_single]
      exact mapInsert_goodFields m x (.str v) hg (hsegs x (by simp)) rfl
  | x :: y :: t, m, v, hg, _, hsegs => by
      have hx : noDot x = true := hsegs x (by simp)
      have hsegs2 : ∀ seg ∈ y :: t, noDot seg = true :=
        fun seg hseg => hsegs seg (List.mem_cons_of_mem _ hseg)
      cases hl : mapLookup m x with
      | none =>
          rw [insert_into_nested_none _ _ _ _ _ hl]
          refine mapInsert_goodFields m x _ hg hx ?_
          exact goodVal_obj_of _
            (insert_into_nested_ne_fnil _ _ _ (by simp))
            (goodFields_insert (y :: t) .fnil v rfl (by simp) hsegs2)
      | some w =>
          cases w with
          | obj nested =>
              rw [insert_into_nested_obj _ _ _ _ _ _ hl]
              have hnest : goodFields nested = true :=
                goodFields_obj_of_goodVal nested (mapLookup_goodVal m x _ hg hl)
              refine mapInsert_goodFields m x _ hg hx ?_
              exact goodVal_obj_of _
                (insert_into_nested_ne_fnil _ _ _ (by simp))
                (goodFields_insert (y :: t) nested v hnest (by simp) hsegs2)
          | str s =>
              rw [insert_into_nested_nonobj _ _ _ _ _ _ hl (by rfl)]
              exact hg
          | num =>
              rw [insert_into_nested_nonobj _ _ _ _ _ _ hl (by rfl)]
              exact hg
          | boolean b =>
              rw [insert_into_nested_nonobj _ _ _ _ _ _ hl (by rfl)]
              exact hg
          | arr =>
              rw [insert_into_nested_nonobj _ _ _ _ _ _ hl (by rfl)]
              exact hg
          | null =>
              rw [insert_into_nested_nonobj _ _ _ _ _ _ hl (by rfl)]
              exact hg

theorem rootEmptyOk_fcons_build (k : Str) (v : JValue) (rest : JFields)
    (hcond : k = [] → ∃ s, v = .str s) (hrest : rootEmptyOk rest = true) :
    rootEmptyOk (.fcons k v rest) = true := by
  by_cases hk : k = []
  · obtain ⟨s, rfl⟩ := hcond hk
    show ((if k = [] then true else true) && rootEmptyOk rest) = true
    rw [ite_self, Bool.true_and]
    exact hrest
  · cases v with
    | str s =>
        show ((if k = [] then true else true) && rootEmptyOk rest) = true
        rw [ite_self, Bool.true_and]
        exact hrest
    | obj fs2 =>
        show ((if k = [] then false else true) && rootEmptyOk rest) = true
        rw [if_neg hk, Bool.true_and]
        exact hrest
    | num =>
        show ((if k = [] then false else true) && rootEmptyOk rest) = true
        rw [if_neg hk, Bool.true_and]
        exact hrest
    | boolean b =>
        show ((if k = [] then false else true) && rootEmptyOk rest) = true
        rw [if_neg hk, Bool.true_and]
        exact hrest
    | arr =>
        show ((if k = [] then false else true) && rootEmptyOk rest) = true
        rw [if_neg hk, Bool.true_and]
        exact hrest
    | null =>
        show ((if k = [] then false else true) && rootEmptyOk rest) = true
        rw [if_neg hk, Bool.true_and]
        exact hrest

theorem rootEmptyOk_mapInsert : ∀ (m : JFields) (k : Str) (v : JValue),
    rootEmptyOk m = true → (k = [] → ∃ s, v = .str s) →
    rootEmptyOk (mapInsert m k v) = true
  | .fnil, k, v, _, hcond => by
      rw [mapInsert]
      exact rootEmptyOk_fcons_build k v .fnil hcond rfl
  | .fcons k2 v2 rest, k, v, hr, hcond => by
      obtain ⟨hcond2, hrest⟩ := rootEmptyOk_fcons_parts k2 v2 rest hr
      by_cases h1 : strLt k k2 = true
      · rw [mapInsert, if_pos h1]
        exact rootEmptyOk_fcons_build k v _ hcond
          (rootEmptyOk_fcons_build k2 v2 rest hcond2 hrest)
      · by_cases h2 : k = k2
        · rw [mapInsert, if_neg (by simp [h1]), if_pos h2]
          exact rootEmptyOk_fcons_build k v rest hcond hrest
        · rw [mapInsert, if_neg (by simp [h1]), if_neg h2]
          exact rootEmptyOk_fcons_build k2 v2 _ hcond2
            (rootEmptyOk_mapInsert rest k v hrest hcond)

theorem rootEmptyOk_insert (p : List Str) (m : JFields) (v : Str)
    (hr : rootEmptyOk m = true)
    (hhead : ∀ h t, p = h :: t → (h ≠ [] ∨ t = [])) :
    rootEmptyOk (insert_into_nested m p v) = true := by
  cases p with
  | nil => exact hr
  | cons x t =>
      cases t with
      | nil =>
          rw [insert_into_nested_single]
          exact rootEmptyOk_mapInsert m x (.str v) hr (fun _ => ⟨v, rfl⟩)
      | cons y t2 =>
          have hx : x ≠ [] := by
            rcases hhead x (y :: t2) rfl with h1 | h1
            · exact h1
            · exact absurd h1 (by simp)
          cases hl : mapLookup m x with
          | none =>
              rw [insert_into_nested_none _ _ _ _ _ hl]
              exact rootEmptyOk_mapInsert m x _ hr (fun he => absurd he hx)
          | some w =>
              cases w with
              | obj nested =>
                  rw [insert_into_nested_obj _ _ _ _ _ _ hl]
                  exact rootEmptyOk_mapInsert m x _ hr (fun he => absurd he hx)
              | str s =>
                  rw [insert_into_nested_nonobj _ _ _ _ _ _ hl (by rfl)]
                  exact hr
              | num =>
                  rw [insert_into_nested_nonobj _ _ _ _ _ _ hl (by rfl)]
                  exact hr
              | boolean b =>
                  rw [insert_into_nested_nonobj _ _ _ _ _ _ hl (by rfl)]
                  exact hr
              | arr =>
                  rw [insert_into_nested_nonobj _ _ _ _ _ _ hl (by rfl)]
                  exact hr
              | null =>
                  rw [insert_into_nested_nonobj _ _ _ _ _ _ hl (by rfl)]
                  exact hr

/-! ### How a nested insertion changes path lookups -/

theorem segPre_nil (b : List Str) : segPre [] b = true := by
  rw [segPre]

theorem segPre_cons_nil (a : Str) (as : List Str) :
    segPre (a :: as) [] = false := by
  rw [segPre]

theorem segPre_cons_cons (a b : Str) (as bs : List Str) :
    segPre (a :: as) (b :: bs) = (decide (a = b) && segPre as bs) := by
  rw [segPre]

theorem segPre_refl : ∀ (p : List Str), segPre p p = true
  | [] => segPre_nil []
  | a :: as => by
      rw [segPre_cons_cons, segPre_refl as]
      simp

theorem lookupPath_congr_head (m1 m2 : JFields) (h : Str) (tq : List Str)
    (he : mapLookup m1 h = mapLookup m2 h) :
    lookupPath m1 (h :: tq) = lookupPath m2 (h :: tq) := by
  cases tq with
  | nil => rw [lookupPath_single_eq, lookupPath_single_eq, he]
  | cons a t =>
      cases hl : mapLookup m2 h with
      | none =>
          rw [lookupPath_cons2_none m1 h a t (he.trans hl),
            lookupPath_cons2_none m2 h a t hl]
      | some w =>
          cases w with
          | obj g =>
              rw [lookupPath_cons2_obj m1 h a t g (he.trans hl),
                lookupPath_cons2_obj m2 h a t g hl]
          | str s =>
              rw [lookupPath_cons2_nonobj m1 h a t _ (he.trans hl) rfl,
                lookupPath_cons2_nonobj m2 h a t _ hl rfl]
          | num =>
              rw [lookupPath_cons2_nonobj m1 h a t _ (he.trans hl) rfl,
                lookupPath_cons2_nonobj m2 h a t _ hl rfl]
          | boolean b =>
              rw [lookupPath_cons2_nonobj m1 h a t _ (he.trans hl) rfl,
                lookupPath_cons2_nonobj m2 h a t _ hl rfl]
          | arr =>
              rw [lookupPath_cons2_nonobj m1 h a t _ (he.trans hl) rfl,
                lookupPath_cons2_nonobj m2 h a t _ hl rfl]
          | null =>
              rw [lookupPath_cons2_nonobj m1 h a t _ (he.trans hl) rfl,
                lookupPath_cons2_nonobj m2 h a t _ hl rfl]

theorem freePath_congr_head (m1 m2 : JFields) (h : Str) (tq : List Str)
    (he : mapLookup m1 h = mapLookup m2 h) :
    freePath m1 (h :: tq) = freePath m2 (h :: tq) := by
  cases tq with
  | nil => rw [freePath_single, freePath_single]
  | cons a t =>
      cases hl : mapLookup m2 h with
      | none =>
          rw [freePath_cons2_none m1 h a t (he.trans hl),
            freePath_cons2_none m2 h a t hl]
      | some w =>
          cases w with
          | obj g =>
              rw [freePath_cons2_obj m1 h a t g (he.trans hl),
                freePath_cons2_obj m2 h a t g hl]
          | str s =>
              rw [freePath_cons2_nonobj m1 h a t _ (he.trans hl) rfl,
                freePath_cons2_nonobj m2 h a t _ hl rfl]
          | num =>
              rw [freePath_cons2_nonobj m1 h a t _ (he.trans hl) rfl,
                freePath_cons2_nonobj m2 h a t _ hl rfl]
          | boolean b =>
              rw [freePath_cons2_nonobj m1 h a t _ (he.trans hl) rfl,
                freePath_cons2_nonobj m2 h a t _ hl rfl]
          | arr =>
              rw [freePath_cons2_nonobj m1 h a t _ (he.trans hl) rfl,
                freePath_cons2_nonobj m2 h a t _ hl rfl]
          | null =>
              rw [freePath_cons2_nonobj m1 h a t _ (he.trans hl) rfl,
                freePath_cons2_nonobj m2 h a t _ hl rfl]

theorem lookupPath_mapInsert_other (m : JFields) (x : Str) (w : JValue)
    (h : Str) (tq : List Str) (hne : h ≠ x) :
    lookupPath (mapInsert m x w) (h :: tq) = lookupPath m (h :: tq) :=
  lookupPath_congr_head _ _ h tq (mapLookup_insert_other m x h w hne)

theorem freePath_mapInsert_other (m : JFields) (x : Str) (w : JValue)
    (h : Str) (tq : List Str) (hne : h ≠ x) :
    freePath (mapInsert m x w) (h :: tq) = freePath m (h :: tq) :=
  freePath_congr_head _ _ h tq (mapLookup_insert_other m x h w hne)

theorem lookupPath_insert_self : ∀ (p : List Str) (m : JFields) (v : Str),
    p ≠ [] → freePath m p = true →
    lookupPath (insert_into_nested m p v) p = some v
  | [], _, _, hp, _ => absurd rfl hp
  | [x], m, v, _, _ => by
      rw [insert_into_nested_single, lookupPath_single_eq,
        mapLookup_insert_self]
  | x :: y :: t, m, v, _, hfree => by
      cases hl : mapLookup m x with
      | none =>
          rw [insert_into_nested_none _ _ _ _ _ hl,
            lookupPath_cons2_obj _ x y t _ (mapLookup_insert_self m x _)]
          exact lookupPath_insert_self (y :: t) .fnil v (by simp)
            (freePath_fnil _)
      | some w =>
          cases w with
          | obj nested =>
              rw [freePath_cons2_obj m x y t nested hl] at hfree
              rw [insert_into_nested_obj _ _ _ _ _ _ hl,
                lookupPath_cons2_obj _ x y t _ (mapLookup_insert_self m x _)]
              exact lookupPath_insert_self (y :: t) nested v (by simp) hfree
          | str s =>
              rw [freePath_cons2_nonobj m x y t _ hl rfl] at hfree
              exact Bool.noConfusion hfree
          | num =>
              rw [freePath_cons2_nonobj m x y t _ hl rfl] at hfree
              exact Bool.noConfusion hfree
          | boolean b =>
              rw [freePath_cons2_nonobj m x y t _ hl rfl] at hfree
              exact Bool.noConfusion hfree
          | arr =>
              rw [freePath_cons2_nonobj m x y t _ hl rfl] at hfree
              exact Bool.noConfusion hfree
          | null =>
              rw [freePath_cons2_nonobj m x y t _ hl rfl] at hfree
              exact Bool.noConfusion hfree

theorem lookupPath_insert_indep : ∀ (p : List Str) (m : JFields) (v : Str)
    (q : List Str), segPre p q = false → segPre q p = false →
    lookupPath (insert_into_nested m p v) q = lookupPath m q
  | [], _, _, q, h1, _ => absurd (segPre_nil q) (by rw [h1]; simp)
  | _ :: _, _, _, [], _, h2 => absurd (segPre_nil _) (by rw [h2]; simp)
  | [x], m, v, h :: tq, h1, _ => by
      have hne : h ≠ x := by
        intro he
        rw [he, segPre_cons_cons, segPre_nil] at h1
        simp at h1
      rw [insert_into_nested_single]
      exact lookupPath_mapInsert_other m x _ h tq hne
  | x :: y :: t, m, v, h :: tq, h1, h2 => by
      by_cases hhx : h = x
      · subst hhx
        cases tq with
        | nil =>
            rw [segPre_cons_cons, segPre_nil] at h2
            simp at h2
        | cons a tt =>
            rw [segPre_cons_cons] at h1 h2
            simp only [decide_True, Bool.true_and] at h1 h2
            have h1t : segPre (y :: t) (a :: tt) = false := by simpa using h1
            have h2t : segPre (a :: tt) (y :: t) = false := by simpa using h2
            cases hl : mapLookup m h with
            | none =>
                rw [insert_into_nested_none _ _ _ _ _ hl,
                  lookupPath_cons2_obj _ h a tt _ (mapLookup_insert_self m h _),
                  lookupPath_insert_indep (y :: t) .fnil v (a :: tt) h1t h2t,
                  lookupPath_fnil, lookupPath_cons2_none m h a tt hl]
            | some w =>
                cases w with
                | obj nested =>
                    rw [insert_into_nested_obj _ _ _ _ _ _ hl,
                      lookupPath_cons2_obj _ h a tt _
                        (mapLookup_insert_self m h _),
                      lookupPath_insert_indep (y :: t) nested v (a :: tt)
                        h1t h2t,
                      lookupPath_cons2_obj m h a tt nested hl]
                | str s =>
                    rw [insert_into_nested_nonobj _ _ _ _ _ _ hl (by rfl)]
                | num =>
                    rw [insert_into_nested_nonobj _ _ _ _ _ _ hl (by rfl)]
                | boolean b =>
                    rw [insert_into_nested_nonobj _ _ _ _ _ _ hl (by rfl)]
                | arr =>
                    rw [insert_into_nested_nonobj _ _ _ _ _ _ hl (by rfl)]
                | null =>
                    rw [insert_into_nested_nonobj _ _ _ _ _ _ hl (by rfl)]
      · cases hl : mapLookup m x with
        | none =>
            rw [insert_into_nested_none _ _ _ _ _ hl]
            exact lookupPath_mapInsert_other m x _ h tq hhx
        | some w =>
            cases w with
            | obj nested =>
                rw [insert_into_nested_obj _ _ _ _ _ _ hl]
                exact lookupPath_mapInsert_other m x _ h tq hhx
            | str s =>
                rw [insert_into_nested_nonobj _ _ _ _ _ _ hl (by rfl)]
            | num =>
                rw [insert_into_nested_nonobj _ _ _ _ _ _ hl (by rfl)]
            | boolean b =>
                rw [insert_into_nested_nonobj _ _ _ _ _ _ hl (by rfl)]
            | arr =>
                rw [insert_into_nested_nonobj _ _ _ _ _ _ hl (by rfl)]
            | null =>
                rw [insert_into_nested_nonobj _ _ _ _ _ _ hl (by rfl)]

theorem freePath_insert_indep : ∀ (p : List Str) (m : JFields) (v : Str)
    (q : List Str), segPre p q = false → segPre q p = false →
    freePath (insert_into_nested m p v) q = freePath m q
  | [], _, _, q, h1, _ => absurd (segPre_nil q) (by rw [h1]; simp)
  | _ :: _, _, _, [], _, h2 => absurd (segPre_nil _) (by rw [h2]; simp)
  | [x], m, v, h :: tq, h1, _ => by
      have hne : h ≠ x := by
        intro he
        rw [he, segPre_cons_cons, segPre_nil] at h1
        simp at h1
      rw [insert_into_nested_single]
      exact freePath_mapInsert_other m x _ h tq hne
  | x :: y :: t, m, v, h :: tq, h1, h2 => by
      by_cases hhx : h = x
      · subst hhx
        cases tq with
        | nil =>
            rw [segPre_cons_cons, segPre_nil] at h2
            simp at h2
        | cons a tt =>
            rw [segPre_cons_cons] at h1 h2
            simp only [decide_True, Bool.true_and] at h1 h2
            have h1t : segPre (y :: t) (a :: tt) = false := by simpa using h1
            have h2t : segPre (a :: tt) (y :: t) = false := by simpa using h2
            cases hl : mapLookup m h with
            | none =>
                rw [insert_into_nested_none _ _ _ _ _ hl,
                  freePath_cons2_obj _ h a tt _ (mapLookup_insert_self m h _),
                  freePath_insert_indep (y :: t) .fnil v (a :: tt) h1t h2t,
                  freePath_fnil, freePath_cons2_none m h a tt hl]
            | some w =>
                cases w with
                | obj nested =>
                    rw [insert_into_nested_obj _ _ _ _ _ _ hl,
                      freePath_cons2_obj _ h a tt _
                        (mapLookup_insert_self m h _),
                      freePath_insert_indep (y :: t) nested v (a :: tt)
                        h1t h2t,
                      freePath_cons2_obj m h a tt nested hl]
                | str s =>
                    rw [insert_into_nested_nonobj _ _ _ _ _ _ hl (by rfl)]
                | num =>
                    rw [insert_into_nested_nonobj _ _ _ _ _ _ hl (by rfl)]
                | boolean b =>
                    rw [insert_into_nested_nonobj _ _ _ _ _ _ hl (by rfl)]
                | arr =>
                    rw [insert_into_nested_nonobj _ _ _ _ _ _ hl (by rfl)]
                | null =>
                    rw [insert_into_nested_nonobj _ _ _ _ _ _ hl (by rfl)]
      · cases hl : mapLookup m x with
        | none =>
            rw [insert_into_nested_none _ _ _ _ _ hl]
            exact freePath_mapInsert_other m x _ h tq hhx
        | some w =>
            cases w with
            | obj nested =>
                rw [insert_into_nested_obj _ _ _ _ _ _ hl]
                exact freePath_mapInsert_other m x _ h tq hhx
            | str s =>
                rw [insert_into_nested_nonobj _ _ _ _ _ _ hl (by rfl)]
            | num =>
                rw [insert_into_nested_nonobj _ _ _ _ _ _ hl (by rfl)]
            | boolean b =>
                rw [insert_into_nested_nonobj _ _ _ _ _ _ hl (by rfl)]
            | arr =>
                rw [insert_into_nested_nonobj _ _ _ _ _ _ hl (by rfl)]
            | null =>
                rw [insert_into_nested_nonobj _ _ _ _ _ _ hl (by rfl)]

theorem segPre_cons_parts (a b : Str) (as bs : List Str)
    (h : segPre (a :: as) (b :: bs) = true) :
    a = b ∧ segPre as bs = true := by
  rw [segPre_cons_cons, Bool.and_eq_true] at h
  exact ⟨by simpa using h.1, h.2⟩

theorem lookupPath_free_above : ∀ (p : List Str) (m : JFields) (r : List Str),
    r ≠ [] → segPre r p = true → r ≠ p → freePath m p = true →
    lookupPath m r = none
  | [], _, r, hr, hpre, _, _ => by
      cases r with
      | nil => exact absurd rfl hr
      | cons a as => rw [segPre_cons_nil] at hpre; exact Bool.noConfusion hpre
  | [x], _, r, hr, hpre, hne, _ => by
      cases r with
      | nil => exact absurd rfl hr
      | cons a as =>
          obtain ⟨hax, has⟩ := segPre_cons_parts a x as [] hpre
          cases as with
          | nil => exact absurd (by rw [hax]) hne
          | cons b bs => rw [segPre_cons_nil] at has; exact Bool.noConfusion has
  | x :: y :: t, m, r, hr, hpre, hne, hfree => by
      cases r with
      | nil => exact absurd rfl hr
      | cons a as =>
          obtain ⟨hax, has⟩ := segPre_cons_parts a x as (y :: t) hpre
          subst hax
          cases hl : mapLookup m a with
          | none =>
              cases as with
              | nil => rw [lookupPath_single_eq, hl]
              | cons b bs => exact lookupPath_cons2_none m a b bs hl
          | some w =>
              cases w with
              | obj nested =>
                  have hfree2 : freePath nested (y :: t) = true := by
                    rw [freePath_cons2_obj m a y t nested hl] at hfree
                    exact hfree
                  cases as with
                  | nil => rw [lookupPath_single_eq, hl]
                  | cons b bs =>
                      rw [lookupPath_cons2_obj m a b bs nested hl]
                      exact lookupPath_free_above (y :: t) nested (b :: bs)
                        (by simp) has (fun he => hne (by rw [he])) hfree2
              | str s =>
                  rw [freePath_cons2_nonobj m a y t _ hl rfl] at hfree
                  exact Bool.noConfusion hfree
              | num =>
                  rw [freePath_cons2_nonobj m a y t _ hl rfl] at hfree
                  exact Bool.noConfusion hfree
              | boolean b2 =>
                  rw [freePath_cons2_nonobj m a y t _ hl rfl] at hfree
                  exact Bool.noConfusion hfree
              | arr =>
                  rw [freePath_cons2_nonobj m a y t _ hl rfl] at hfree
                  exact Bool.noConfusion hfree
              | null =>
                  rw [freePath_cons2_nonobj m a y t _ hl rfl] at hfree
                  exact Bool.noConfusion hfree

theorem lookupPath_insert_above : ∀ (p : List Str) (m : JFields) (v : Str)
    (r : List Str), r ≠ [] → segPre r p = true → r ≠ p →
    freePath m p = true →
    lookupPath (insert_into_nested m p v) r = none
  | [], _, _, r, hr, hpre, _, _ => by
      cases r with
      | nil => exact absurd rfl hr
      | cons a as => rw [segPre_cons_nil] at hpre; exact Bool.noConfusion hpre
  | [x], _, _, r, hr, hpre, hne, _ => by
      cases r with
      | nil => exact absurd rfl hr
      | cons a as =>
          obtain ⟨hax, has⟩ := segPre_cons_parts a x as [] hpre
          cases as with
          | nil => exact absurd (by rw [hax]) hne
          | cons b bs => rw [segPre_cons_nil] at has; exact Bool.noConfusion has
  | x :: y :: t, m, v, r, hr, hpre, hne, hfree => by
      cases r with
      | nil => exact absurd rfl hr
      | cons a as =>
          obtain ⟨hax, has⟩ := segPre_cons_parts a x as (y :: t) hpre
          subst hax
          cases hl : mapLookup m a with
          | none =>
              rw [insert_into_nested_none _ _ _ _ _ hl]
              cases as with
              | nil =>
                  rw [lookupPath_single_eq, mapLookup_insert_self]
              | cons b bs =>
                  rw [lookupPath_cons2_obj _ a b bs _
                    (mapLookup_insert_self m a _)]
                  exact lookupPath_insert_above (y :: t) .fnil v (b :: bs)
                    (by simp) has (fun he => hne (by rw [he]))
                    (freePath_fnil _)
          | some w =>
              cases w with
              | obj nested =>
                  have hfree2 : freePath nested (y :: t) = true := by
                    rw [freePath_cons2_obj m a y t nested hl] at hfree
                    exact hfree
                  rw [insert_into_nested_obj _ _ _ _ _ _ hl]
                  cases as with
                  | nil =>
                      rw [lookupPath_single_eq, mapLookup_insert_self]
                  | cons b bs =>
                      rw [lookupPath_cons2_obj _ a b bs _
                        (mapLookup_insert_self m a _)]
                      exact lookupPath_insert_above (y :: t) nested v (b :: bs)
                        (by simp) has (fun he => hne (by rw [he])) hfree2
              | str s =>
                  rw [freePath_cons2_nonobj m a y t _ hl rfl] at hfree
                  exact Bool.noConfusion hfree
              | num =>
                  rw [freePath_cons2_nonobj m a y t _ hl rfl] at hfree
                  exact Bool.noConfusion hfree
              | boolean b2 =>
                  rw [freePath_cons2_nonobj m a y t _ hl rfl] at hfree
                  exact Bool.noConfusion hfree
              | arr =>
                  rw [freePath_cons2_nonobj m a y t _ hl rfl] at hfree
                  exact Bool.noConfusion hfree
              | null =>
                  rw [freePath_cons2_nonobj m a y t _ hl rfl] at hfree
                  exact Bool.noConfusion hfree

theorem lookupPath_insert_below : ∀ (p : List Str) (m : JFields) (v : Str)
    (q : List Str), p ≠ [] → segPre p q = true → p ≠ q →
    freePath m p = true →
    lookupPath (insert_into_nested m p v) q = none
  | [], _, _, _, hp, _, _, _ => absurd rfl hp
  | [x], m, v, q, _, hpre, hne, _ => by
      cases q with
      | nil => rw [segPre_cons_nil] at hpre; exact Bool.noConfusion hpre
      | cons a as =>
          obtain ⟨hax, _⟩ := segPre_cons_parts x a [] as hpre
          subst hax
          cases as with
          | nil => exact absurd rfl hne
          | cons b bs =>
              rw [insert_into_nested_single]
              exact lookupPath_cons2_nonobj _ x b bs _
                (mapLookup_insert_self m x _) rfl
  | x :: y :: t, m, v, q, _, hpre, hne, hfree => by
      cases q with
      | nil => rw [segPre_cons_nil] at hpre; exact Bool.noConfusion hpre
      | cons a as =>
          obtain ⟨hax, has⟩ := segPre_cons_parts x a (y :: t) as hpre
          subst hax
          cases as with
          | nil => rw [segPre_cons_nil] at has; exact Bool.noConfusion has
          | cons b bs =>
              cases hl : mapLookup m x with
              | none =>
                  rw [insert_into_nested_none _ _ _ _ _ hl,
                    lookupPath_cons2_obj _ x b bs _
                      (mapLookup_insert_self m x _)]
                  exact lookupPath_insert_below (y :: t) .fnil v (b :: bs)
                    (by simp) has (fun he => hne (by rw [he]))
                    (freePath_fnil _)
              | some w =>
                  cases w with
                  | obj nested =>
                      have hfree2 : freePath nested (y :: t) = true := by
                        rw [freePath_cons2_obj m x y t nested hl] at hfree
                        exact hfree
                      rw [insert_into_nested_obj _ _ _ _ _ _ hl,
                        lookupPath_cons2_obj _ x b bs _
                          (mapLookup_insert_self m x _)]
                      exact lookupPath_insert_below (y :: t) nested v (b :: bs)
                        (by simp) has (fun he => hne (by rw [he])) hfree2
                  | str s =>
                      rw [freePath_cons2_nonobj m x y t _ hl rfl] at hfree
                      exact Bool.noConfusion hfree
                  | num =>
                      rw [freePath_cons2_nonobj m x y t _ hl rfl] at hfree
                      exact Bool.noConfusion hfree
                  | boolean b2 =>
                      rw [freePath_cons2_nonobj m x y t _ hl rfl] at hfree
                      exact Bool.noConfusion hfree
                  | arr =>
                      rw [freePath_cons2_nonobj m x y t _ hl rfl] at hfree
                      exact Bool.noConfusion hfree
                  | null =>
                      rw [freePath_cons2_nonobj m x y t _ hl rfl] at hfree
                      exact Bool.noConfusion hfree

theorem segPre_trans : ∀ (a b c : List Str),
    segPre a b = true → segPre b c = true → segPre a c = true
  | [], _, c, _, _ => segPre_nil c
  | x :: as, b, c, h1, h2 => by
      cases b with
      | nil => rw [segPre_cons_nil] at h1; exact Bool.noConfusion h1
      | cons y bs =>
          obtain ⟨hxy, has⟩ := segPre_cons_parts x y as bs h1
          cases c with
          | nil => rw [segPre_cons_nil] at h2; exact Bool.noConfusion h2
          | cons z cs =>
              obtain ⟨hyz, hbs⟩ := segPre_cons_parts y z bs cs h2
              rw [segPre_cons_cons, Bool.and_eq_true]
              exact ⟨by simp [hxy, hyz], segPre_trans as bs cs has hbs⟩

theorem segPre_comparable : ∀ (c a b : List Str),
    segPre a c = true → segPre b c = true →
    segPre a b = true ∨ segPre b a = true
  | c, [], b, _, _ => Or.inl (segPre_nil b)
  | c, a, [], _, _ => Or.inr (segPre_nil a)
  | c, x :: as, y :: bs, h1, h2 => by
      cases c with
      | nil => rw [segPre_cons_nil] at h1; exact Bool.noConfusion h1
      | cons z cs =>
          obtain ⟨hxz, has⟩ := segPre_cons_parts x z as cs h1
          obtain ⟨hyz, hbs⟩ := segPre_cons_parts y z bs cs h2
          have hxy : x = y := hxz.trans hyz.symm
          rcases segPre_comparable cs as bs has hbs with h | h
          · refine Or.inl ?_
            rw [segPre_cons_cons, Bool.and_eq_true]
            exact ⟨by simp [hxy], h⟩
          · refine Or.inr ?_
            rw [segPre_cons_cons, Bool.and_eq_true]
            exact ⟨by simp [hxy], h⟩

/-- The main invariant of the unflatten fold: inserting a list of pairwise
independent, well-formed segment paths into a good accumulator realizes
exactly the association lookup over those paths, while preserving goodness.
-/
theorem unflatten_fold_invariant : ∀ (L : List (List Str × Str)) (T0 : JFields),
    goodFields T0 = true → rootEmptyOk T0 = true →
    (L.map Prod.fst).Pairwise
      (fun p q => segPre p q = false ∧ segPre q p = false) →
    (∀ e ∈ L, e.1 ≠ []) →
    (∀ e ∈ L, ∀ h tl, e.1 = h :: tl → (h ≠ [] ∨ tl = [])) →
    (∀ e ∈ L, ∀ seg ∈ e.1, noDot seg = true) →
    (∀ e ∈ L, freePath T0 e.1 = true) →
    (∀ e ∈ L, ∀ q, segPre e.1 q = true → e.1 ≠ q → lookupPath T0 q = none) →
    goodFields (L.foldl (fun mm e => insert_into_nested mm e.1 e.2) T0) = true
    ∧ rootEmptyOk (L.foldl (fun mm e => insert_into_nested mm e.1 e.2) T0)
        = true
    ∧ ∀ p, lookupPath (L.foldl (fun mm e => insert_into_nested mm e.1 e.2) T0) p
        = (match lookupPathKey L p with
           | some v => some v
           | none => lookupPath T0 p)
  | [], T0, hg, hr, _, _, _, _, _, _ =>
      ⟨hg, hr, fun p => by rw [List.foldl_nil, lookupPathKey]⟩
  | (P0, v0) :: rest, T0, hg, hr, hpair, hne, hhead, hsegs, hfree, hbelow => by
      have hmem0 : (P0, v0) ∈ (P0, v0) :: rest := List.mem_cons_self _ _
      have hP0ne : P0 ≠ [] := hne (P0, v0) hmem0
      have hfree0 : freePath T0 P0 = true := hfree (P0, v0) hmem0
      rw [List.map_cons] at hpair
      obtain ⟨hP0rest, hpairrest⟩ := List.pairwise_cons.mp hpair
      have hindep : ∀ e ∈ rest, segPre P0 e.1 = false ∧ segPre e.1 P0 = false :=
        fun e he => hP0rest e.1 (List.mem_map.mpr ⟨e, he, rfl⟩)
      have hg1 : goodFields (insert_into_nested T0 P0 v0) = true :=
        goodFields_insert P0 T0 v0 hg hP0ne
          (fun seg hseg => hsegs (P0, v0) hmem0 seg hseg)
      have hr1 : rootEmptyOk (insert_into_nested T0 P0 v0) = true :=
        rootEmptyOk_insert P0 T0 v0 hr
          (fun h tl htl => hhead (P0, v0) hmem0 h tl htl)
      have hfree1 : ∀ e ∈ rest, freePath (insert_into_nested T0 P0 v0) e.1
          = true := by
        intro e he
        rw [freePath_insert_indep P0 T0 v0 e.1 (hindep e he).1 (hindep e he).2]
        exact hfree e (List.mem_cons_of_mem _ he)
      have hbelow1 : ∀ e ∈ rest, ∀ q, segPre e.1 q = true → e.1 ≠ q →
          lookupPath (insert_into_nested T0 P0 v0) q = none := by
        intro e he q hq hneq
        have hqP : segPre q P0 = false := by
          cases hc : segPre q P0 with
          | false => rfl
          | true =>
              have ht := segPre_trans e.1 q P0 hq hc
              rw [(hindep e he).2] at ht
              exact Bool.noConfusion ht
        have hPq : segPre P0 q = false := by
          cases hc : segPre P0 q with
          | false => rfl
          | true =>
              rcases segPre_comparable q P0 e.1 hc hq with h | h
              · rw [(hindep e he).1] at h
                exact Bool.noConfusion h
              · rw [(hindep e he).2] at h
                exact Bool.noConfusion h
        rw [lookupPath_insert_indep P0 T0 v0 q hPq hqP]
        exact hbelow e (List.mem_cons_of_mem _ he) q hq hneq
      obtain ⟨ihg, ihr, ihl⟩ := unflatten_fold_invariant rest
        (insert_into_nested T0 P0 v0) hg1 hr1 hpairrest
        (fun e he => hne e (List.mem_cons_of_mem _ he))
        (fun e he => hhead e (List.mem_cons_of_mem _ he))
        (fun e he => hsegs e (List.mem_cons_of_mem _ he))
        hfree1 hbelow1
      rw [List.foldl_cons]
      refine ⟨ihg, ihr, ?_⟩
      intro p
      rw [ihl p, lookupPathKey]
      by_cases hpP : p = P0
      · subst hpP
        rw [if_pos rfl]
        have hrk : lookupPathKey rest p = none := by
          apply lookupPathKey_nil_of_ne
          intro pr hpr heq
          have hi := (hindep pr hpr).1
          rw [heq] at hi
          rw [segPre_refl p] at hi
          exact Bool.noConfusion hi
        rw [hrk]
        exact lookupPath_insert_self p T0 v0 hP0ne hfree0
      · rw [if_neg hpP]
        cases hrk : lookupPathKey rest p with
        | some v => rfl
        | none =>
            show lookupPath (insert_into_nested T0 P0 v0) p = lookupPath T0 p
            by_cases hcase1 : segPre p P0 = true
            · by_cases hpnil : p = []
              · subst hpnil
                rw [lookupPath_nil, lookupPath_nil]
              · rw [lookupPath_insert_above P0 T0 v0 p hpnil hcase1 hpP hfree0,
                  lookupPath_free_above P0 T0 p hpnil hcase1 hpP hfree0]
            · by_cases hcase2 : segPre P0 p = true
              · rw [lookupPath_insert_below P0 T0 v0 p hP0ne hcase2
                  (fun he => hpP he.symm) hfree0,
                  hbelow (P0, v0) hmem0 p hcase2 (fun he => hpP he.symm)]
              · have hc1f : segPre p P0 = false := by simpa using hcase1
                have hc2f : segPre P0 p = false := by simpa using hcase2
                exact lookupPath_insert_indep P0 T0 v0 p hc2f hc1f

/-! ### Path lookups through the paths listing of a tree -/

theorem lookupPathKey_map_cons {β : Type} (k : Str) :
    ∀ (L : List (List Str × β)) (tq : List Str),
    lookupPathKey (L.map (fun e => (k :: e.1, e.2))) (k :: tq)
      = lookupPathKey L tq
  | [], tq => rfl
  | (p1, v1) :: rest, tq => by
      rw [List.map_cons, lookupPathKey, lookupPathKey]
      by_cases htq : tq = p1
      · rw [if_pos htq, if_pos (by rw [htq])]
      · rw [if_neg htq, if_neg (fun he => htq (by injection he)),
          lookupPathKey_map_cons k rest tq]

theorem lookupPath_head_none (m : JFields) (h : Str) (tq : List Str)
    (hl : mapLookup m h = none) : lookupPath m (h :: tq) = none := by
  cases tq with
  | nil => rw [lookupPath_single_eq, hl]
  | cons a tt => exact lookupPath_cons2_none m h a tt hl

theorem mapLookup_keyBelow_none (m : JFields) (k : Str)
    (hkb : keyBelow k m = true) : mapLookup m k = none := by
  apply mapLookup_eq_none
  intro x hx he
  have hlt := keyBelow_mem m k hkb x hx
  rw [he, strLt_irrefl] at hlt
  exact Bool.noConfusion hlt

theorem pathVal_str (s : Str) (q : List Str) :
    pathVal (.str s) q = if q = [] then some s else none := rfl

theorem pathVal_obj (fs : JFields) (q : List Str) :
    pathVal (.obj fs) q = lookupPath fs q := rfl

mutual
theorem lookupPathKey_pathsV : ∀ (v : JValue), goodVal v = true →
    ∀ (q : List Str),
    lookupPathKey (pathsV v) q = pathVal v q
  | .str s, _, q => by
      rw [pathsV, lookupPathKey, pathVal_str]
      by_cases hq : q = []
      · rw [if_pos hq, if_pos hq]
      · rw [if_neg hq, if_neg hq, lookupPathKey]
  | .obj fs, h, q => by
      cases fs with
      | fnil => exact Bool.noConfusion h
      | fcons k v rest =>
          rw [goodVal_obj_fcons] at h
          rw [pathsV, pathVal_obj]
          exact lookupPathKey_pathsF _ h q
  | .num, h, _ => Bool.noConfusion h
  | .boolean b, h, _ => Bool.noConfusion h
  | .arr, h, _ => Bool.noConfusion h
  | .null, h, _ => Bool.noConfusion h
theorem lookupPathKey_pathsF : ∀ (m : JFields), goodFields m = true →
    ∀ (p : List Str),
    lookupPathKey (pathsF m) p = lookupPath m p
  | .fnil, _, p => by rw [pathsF, lookupPathKey, lookupPath_fnil]
  | .fcons k v rest, hgood, p => by
      obtain ⟨hk, hv, hkb, hrest⟩ := goodFields_fcons_parts k v rest hgood
      rw [pathsF, lookupPathKey_append]
      have hrestk : mapLookup rest k = none := mapLookup_keyBelow_none rest k hkb
      cases p with
      | nil =>
          have h1 : lookupPathKey
              ((pathsV v).map (fun e => (k :: e.1, e.2))) ([] : List Str)
              = none := by
            apply lookupPathKey_nil_of_ne
            intro pr hpr
            obtain ⟨e, _, hee⟩ := List.mem_map.mp hpr
            rw [← hee]
            simp
          rw [h1, lookupPathKey_pathsF rest hrest, lookupPath_nil,
            lookupPath_nil]
      | cons h tq =>
          by_cases hhk : h = k
          · subst hhk
            rw [lookupPathKey_map_cons h (pathsV v) tq,
              lookupPathKey_pathsV v hv tq]
            have hmk : mapLookup (JFields.fcons h v rest) h = some v := by
              rw [mapLookup, if_pos rfl]
            cases v with
            | str s =>
                rw [pathVal_str]
                cases tq with
                | nil =>
                    rw [if_pos rfl, lookupPath_single_eq, hmk]
                | cons a tt =>
                    rw [if_neg (by simp),
                      lookupPathKey_pathsF rest hrest,
                      lookupPath_head_none rest h (a :: tt) hrestk,
                      lookupPath_cons2_nonobj _ h a tt _ hmk rfl]
            | obj fs =>
                rw [pathVal_obj]
                cases tq with
                | nil =>
                    rw [lookupPath_nil, lookupPathKey_pathsF rest hrest,
                      lookupPath_head_none rest h [] hrestk,
                      lookupPath_single_eq, hmk]
                | cons a tt =>
                    rw [lookupPath_cons2_obj _ h a tt fs hmk]
                    cases hfsq : lookupPath fs (a :: tt) with
                    | some sres => rfl
                    | none =>
                        rw [lookupPathKey_pathsF rest hrest,
                          lookupPath_head_none rest h (a :: tt) hrestk]
            | num => exact Bool.noConfusion hv
            | boolean b => exact Bool.noConfusion hv
            | arr => exact Bool.noConfusion hv
            | null => exact Bool.noConfusion hv
          · have h1 : lookupPathKey
                ((pathsV v).map (fun e => (k :: e.1, e.2))) (h :: tq)
                = none := by
              apply lookupPathKey_nil_of_ne
              intro pr hpr
              obtain ⟨e, _, hee⟩ := List.mem_map.mp hpr
              rw [← hee]
              intro hcon
              injection hcon with hc1 _
              exact hhk hc1.symm
            have h2 : mapLookup (JFields.fcons k v rest) h = mapLookup rest h := by
              rw [mapLookup, if_neg hhk]
            rw [h1, lookupPathKey_pathsF rest hrest,
              lookupPath_congr_head (JFields.fcons k v rest) rest h tq h2]
end

/-! ### Bridges between flat dot keys and segment paths -/

theorem pathIndep_parts (a b : Str) (h : pathIndep a b = true) :
    segPre (splitDot a) (splitDot b) = false
      ∧ segPre (splitDot b) (splitDot a) = false := by
  rw [pathIndep, Bool.and_eq_true] at h
  exact ⟨by simpa using h.1, by simpa using h.2⟩

theorem headOkKey_parts (k : Str) (h : Str) (tl : List Str)
    (hsp : splitDot k = h :: tl) (hok : headOkKey k = true) :
    h ≠ [] ∨ tl = [] := by
  cases tl with
  | nil => exact Or.inr rfl
  | cons a tt =>
      refine Or.inl ?_
      have hh : headOkKey k = !(h.isEmpty) := by
        unfold headOkKey
        rw [hsp]
      rw [hh] at hok
      simp at hok
      simp [hok]

theorem overlayKV_lookup {β : Type} : ∀ (u : List (Str × β))
    (A : List (Str × β)), (u.map Prod.fst).Nodup →
    ∀ k, lookupKV (overlayKV A u) k
      = (match lookupKV u k with
         | some v => some v
         | none => lookupKV A k)
  | [], A, _, k => by rw [overlayKV, List.foldl_nil, lookupKV]
  | (k0, v0) :: rest, A, hnd, k => by
      rw [List.map_cons, List.nodup_cons] at hnd
      have hstep : overlayKV A ((k0, v0) :: rest)
          = overlayKV (insertKV A k0 v0) rest := by
        rw [overlayKV, List.foldl_cons, overlayKV]
      rw [hstep, overlayKV_lookup rest (insertKV A k0 v0) hnd.2 k, lookupKV]
      by_cases hk : k = k0
      · subst hk
        rw [if_pos rfl]
        have hrest : lookupKV rest k = none :=
          (lookupKV_eq_none_iff rest k).mpr hnd.1
        rw [hrest]
        exact lookupKV_insert_self A k v0
      · rw [if_neg hk]
        cases hr : lookupKV rest k with
        | some v => rfl
        | none =>
            show lookupKV (insertKV A k0 v0) k = lookupKV A k
            exact lookupKV_insert_other A k0 k v0 hk

theorem lookupKV_join_entries : ∀ (L : List (List Str × Str)),
    (∀ pr ∈ L, splitDot (joinSegs [] pr.1) = pr.1) →
    ∀ k, lookupKV (L.map (fun pr => ((joinSegs [] pr.1 : Str), pr.2))) k
      = lookupPathKey L (splitDot k)
  | [], _, k => by rw [List.map_nil, lookupKV, lookupPathKey]
  | (p1, v1) :: rest, hsp, k => by
      have hsp1 : splitDot (joinSegs [] p1) = p1 :=
        hsp (p1, v1) (List.mem_cons_self _ _)
      rw [List.map_cons, lookupKV, lookupPathKey]
      by_cases hk : k = joinSegs [] p1
      · rw [if_pos hk, if_pos (by rw [hk, hsp1])]
      · rw [if_neg hk,
          if_neg (fun he => hk (splitDot_injective (he.trans hsp1.symm))),
          lookupKV_join_entries rest
            (fun pr hpr => hsp pr (List.mem_cons_of_mem _ hpr)) k]

theorem lookupPathKey_split : ∀ (F : FlatMap) (k : Str),
    lookupPathKey (F.map (fun e => (splitDot e.1, e.2))) (splitDot k)
      = lookupKV F k
  | [], k => by rw [List.map_nil, lookupPathKey, lookupKV]
  | (k1, v1) :: rest, k => by
      rw [List.map_cons, lookupPathKey, lookupKV]
      by_cases hk : k = k1
      · rw [if_pos (by rw [hk]), if_pos hk]
      · rw [if_neg (fun he => hk (splitDot_injective he)), if_neg hk,
          lookupPathKey_split rest k]

/-- Flattening a good tree produces exactly its dot-joined path entries. -/
theorem flatten_good_fields (T : JFields) (hg : goodFields T = true)
    (hr : rootEmptyOk T = true) :
    flatten_object (.obj T) []
      = (pathsF T).map (fun pr => ((joinSegs [] pr.1 : Str), pr.2)) := by
  rw [flatten_object]
  rw [show flatten_recursive (.obj T) [] [] = flatten_fields T [] [] from rfl]
  rw [flatten_fields_paths T [] [] (root_keys_nodup T hg hr)
    (by intro key _; rfl)]
  rw [List.nil_append]

/-- The splitDot of every dot-joined path of a good tree recovers the path. -/
theorem pathsF_split_join (T : JFields) (hg : goodFields T = true)
    (hr : rootEmptyOk T = true) :
    ∀ pr ∈ pathsF T, splitDot (joinSegs [] pr.1) = pr.1 := by
  intro pr hpr
  obtain ⟨k1, p1, hs1, hr1⟩ := pathsF_root_heads T hr pr hpr
  have hsegs := pathsF_segs_noDot T hg pr hpr
  rw [hs1]
  exact splitDot_joinSegs_root k1 p1
    (hsegs k1 (by rw [hs1]; simp))
    (fun seg hseg => hsegs seg (by rw [hs1]; exact List.mem_cons_of_mem _ hseg))
    hr1

/-- Looking a dot key up in the flattening of a good tree is the tree lookup
along the key segments. -/
theorem flatten_lookupKV (T : JFields) (hg : goodFields T = true)
    (hr : rootEmptyOk T = true) (k : Str) :
    lookupKV (flatten_object (.obj T) []) k = lookupPath T (splitDot k) := by
  rw [flatten_good_fields T hg hr,
    lookupKV_join_entries (pathsF T) (pathsF_split_join T hg hr) k,
    lookupPathKey_pathsF T hg (splitDot k)]

/-- Round trip at the level of flat lookups: unflattening a well-formed flat
map and flattening the result preserves every key lookup. -/
theorem unflatten_flatten_lookup (F : FlatMap) (hwf : flatKeysWF F) (k : Str) :
    lookupKV (flatten_object (unflatten_object F) []) k = lookupKV F k := by
  obtain ⟨hpairF, hheadF⟩ := hwf
  have hfold : unflatten_fields F
      = (F.map (fun e => (splitDot e.1, e.2))).foldl
          (fun mm e => insert_into_nested mm e.1 e.2) .fnil := by
    rw [unflatten_fields, List.foldl_map]
  have h1 : F.Pairwise (fun a b => pathIndep a.1 b.1 = true) :=
    List.pairwise_map.mp hpairF
  have h2 : F.Pairwise (fun a b =>
      segPre (splitDot a.1) (splitDot b.1) = false
        ∧ segPre (splitDot b.1) (splitDot a.1) = false) :=
    h1.imp (fun hab => pathIndep_parts _ _ hab)
  obtain ⟨ihg, ihr, ihl⟩ := unflatten_fold_invariant
    (F.map (fun e => (splitDot e.1, e.2))) .fnil rfl rfl
    (List.pairwise_map.mpr (List.pairwise_map.mpr h2))
    (by
      intro e he
      obtain ⟨a, _, hae⟩ := List.mem_map.mp he
      rw [← hae]
      exact splitDot_ne_nil a.1)
    (by
      intro e he h tl htl
      obtain ⟨a, ha, hae⟩ := List.mem_map.mp he
      refine headOkKey_parts a.1 h tl ?_ ?_
      · rw [← htl, ← hae]
      · exact hheadF a.1 (List.mem_map.mpr ⟨a, ha, rfl⟩))
    (by
      intro e he seg hseg
      obtain ⟨a, _, hae⟩ := List.mem_map.mp he
      rw [← hae] at hseg
      exact splitDot_segments_noDot a.1 seg hseg)
    (fun e _ => freePath_fnil e.1)
    (fun e _ q _ _ => lookupPath_fnil q)
  have hgT : goodFields (unflatten_fields F) = true := by rw [hfold]; exact ihg
  have hrT : rootEmptyOk (unflatten_fields F) = true := by rw [hfold]; exact ihr
  rw [show flatten_object (unflatten_object F) []
      = flatten_object (.obj (unflatten_fields F)) [] from rfl]
  rw [flatten_lookupKV (unflatten_fields F) hgT hrT k, hfold,
    ihl (splitDot k), lookupPath_fnil]
  cases hpk : lookupPathKey (F.map (fun e => (splitDot e.1, e.2))) (splitDot k)
    with
  | some v =>
      rw [← lookupPathKey_split F k, hpk]
  | none =>
      rw [← lookupPathKey_split F k, hpk]

/-- C2 counterexample: for the original tree with the single leaf a.b = x and
the update map binding the key a, the merge does not keep the original key
a.b even though it is absent from the updates: inserting a after a.b during
unflattening replaces the object at a, and the leaf a.b is lost from the
merged tree. -/
theorem c2_counterexample :
    lookupKV (flatten_object (.obj (.fcons (strOf "a")
        (.obj (.fcons (strOf "b") (.str (strOf "x")) .fnil)) .fnil)) [])
        (strOf "a.b") = some (strOf "x")
    ∧ lookupKV [(strOf "a", strOf "y")] (strOf "a.b") = none
    ∧ lookupKV (flatten_object (merge_with_flat
        (.obj (.fcons (strOf "a")
          (.obj (.fcons (strOf "b") (.str (strOf "x")) .fnil)) .fnil))
        [(strOf "a", strOf "y")]) []) (strOf "a.b") = none := by
  decide

/-- C2: with the amendment that the update keys are duplicate free and that
the overlaid flat map (the flattened original extended by the updates) has
pairwise dot-path independent keys none of which starts with a dot segment,
the structure-preserving merge is correct at the level of flat lookups:
every key carries the update value when the key is in the updates, and
otherwise the value it has in the flattened original (so original-only keys
are preserved, keys in both are replaced, and update-only keys are added).
Without the amendment the property fails (c2_counterexample). -/
theorem c2_merge_lookup (original : JValue) (u : FlatMap)
    (hu : (u.map Prod.fst).Nodup)
    (hwf : flatKeysWF (overlayKV (flatten_object original []) u)) :
    ∀ k : Str,
      lookupKV (flatten_object (merge_with_flat original u) []) k
        = (match lookupKV u k with
           | some v => some v
           | none => lookupKV (flatten_object original []) k) := by
  intro k
  have h1 : merge_with_flat original u
      = unflatten_object (overlayKV (flatten_object original []) u) := rfl
  rw [h1, unflatten_flatten_lookup _ hwf k,
    overlayKV_lookup u (flatten_object original []) hu k]
  cases lookupKV u k with
  | some v => rfl
  | none => rfl

/-- Witness for c2_merge_lookup on a concrete input: original a.b = x, update
c = y; the hypotheses hold by computation and the conclusion follows by the
theorem. -/
theorem c2_merge_lookup_witness :
    ((([(strOf "c", strOf "y")] : FlatMap).map Prod.fst).Nodup
      ∧ flatKeysWF (overlayKV (flatten_object (.obj (.fcons (strOf "a")
          (.obj (.fcons (strOf "b") (.str (strOf "x")) .fnil)) .fnil)) [])
          [(strOf "c", strOf "y")]))
    ∧ ∀ k : Str,
        lookupKV (flatten_object (merge_with_flat (.obj (.fcons (strOf "a")
            (.obj (.fcons (strOf "b") (.str (strOf "x")) .fnil)) .fnil))
            [(strOf "c", strOf "y")]) []) k
          = (match lookupKV [(strOf "c", strOf "y")] k with
             | some v => some v
             | none => lookupKV (flatten_object (.obj (.fcons (strOf "a")
                 (.obj (.fcons (strOf "b") (.str (strOf "x")) .fnil)) .fnil))
                 []) k) :=
  ⟨⟨by decide, by unfold flatKeysWF; decide⟩,
    c2_merge_lookup _ _ (by decide) (by unfold flatKeysWF; decide)⟩

end YFlow
